import Mathlib

/-!
Dashboard scripts: sort indicators, loading overlay, search debouncer, cache
worker and event relay.

A shallow embedding of `www/script.js`, `www/service-worker.js` and
`Project2Deployment/www/service.js`.  The browser objects the scripts talk to
(the DOM, the timer queue, the cache storage, the network, the Shiny bridge)
are explicit values that every handler receives and returns.
-/

namespace Dashboard

/-! ## Sort-indicator controller (`www/script.js`, lines 21-101) -/

/-- One `th.sortable` element: its `data-column` attribute (absent or a
string), the tokens of its `class` attribute (what is left of the attribute
between white space, in order), and the texts of its `.sort-indicator`
descendants in document order.  Its other children are never touched by the
script and are left out. -/
structure Header where
  dataColumn : Option String
  classes : List String
  indicators : List String
deriving DecidableEq, Repr

/-- The part of the document the sort controller reads and writes: the values
of the inputs `#sort_column` and `#sort_direction`, and the `th.sortable`
elements in document order. -/
structure Dom where
  sort_column : String
  sort_direction : String
  headers : List Header
deriving DecidableEq, Repr

/-- What a `MutationObserver` with `childList: true` records for one change:
the lengths of `addedNodes` and `removedNodes`. -/
structure MutationRecord where
  addedNodes : Nat
  removedNodes : Nat
deriving DecidableEq, Repr

/-- The values `$(this).data('column')` can hand to `handleSort` that this
model covers; a number is kept by its text (`value + ""`). -/
inductive JsValue where
  | undefined
  | null
  | boolean (b : Bool)
  | number (text : String)
  | string (text : String)
deriving DecidableEq, Repr

/-- What `.val(value)` stores in an input: the empty string for `undefined`
and `null`, the text of the value otherwise. -/
def valText : JsValue → String
  | JsValue.undefined => ""
  | JsValue.null => ""
  | JsValue.boolean b => if b then "true" else "false"
  | JsValue.number text => text
  | JsValue.string text => text

/-- A decimal numeral of at most 15 digits without a leading zero: a text for
which jQuery's test `data === +data + ""` holds. -/
def canonicalNatural (data : String) : Bool :=
  !data.data.isEmpty && data.data.all Char.isDigit && decide (data.data.length ≤ 15) &&
    (data == "0" || data.data.head? != some (Char.ofNat 48))

/-- The text starts with an ASCII letter or an underscore. -/
def startsWithLetter (data : String) : Bool :=
  match data.data with
  | [] => false
  | c :: _ => c.isAlpha || c.toNat == 95

/-- The conversion jQuery's `.data()` applies to the text of a `data-`
attribute, on the texts this model covers: `true`, `false` and `null` become
the values they name, a decimal numeral becomes a number, the empty text and a
text that starts with a letter (other than `NaN` and `Infinity`) stay strings.
Other texts (other number forms, JSON) are outside the model: `none`. -/
def getData (data : String) : Option JsValue :=
  if data = "true" then some (JsValue.boolean true)
  else if data = "false" then some (JsValue.boolean false)
  else if data = "null" then some JsValue.null
  else if canonicalNatural data then some (JsValue.number data)
  else if data = "" then some (JsValue.string "")
  else if startsWithLetter data ∧ data ≠ "NaN" ∧ data ≠ "Infinity" then
    some (JsValue.string data)
  else none

/-- The call `$(this).data('column')` on a header with the given `data-column`
attribute: `undefined` without the attribute. -/
def dataColumnValue (dataColumn : Option String) : Option JsValue :=
  match dataColumn with
  | none => some JsValue.undefined
  | some data => getData data

/-- The white space of class names and selectors: space, tab, line feed, form
feed, carriage return. -/
def isHtmlWhite (c : Char) : Bool :=
  c.toNat == 32 || c.toNat == 9 || c.toNat == 10 || c.toNat == 12 || c.toNat == 13

/-- The tokens of a text between white space, the token under way in `cur`. -/
def splitTokens : List Char → List Char → List String
  | [], cur => if cur.isEmpty then [] else [String.mk cur]
  | c :: cs, cur =>
      if isHtmlWhite c then
        (if cur.isEmpty then splitTokens cs [] else String.mk cur :: splitTokens cs [])
      else splitTokens cs (cur ++ [c])

/-- The class names jQuery reads from the argument of `addClass` and
`removeClass`. -/
def classesToArray (value : String) : List String :=
  splitTokens value.data []

/-- The pieces of a text between single spaces, empty pieces kept. -/
def splitSpaces : List Char → List Char → List String
  | [], cur => [String.mk cur]
  | c :: cs, cur =>
      if c.toNat == 32 then String.mk cur :: splitSpaces cs [] else splitSpaces cs (cur ++ [c])

/-- jQuery `.removeClass(value)` on one class attribute: every occurrence of
each class name of `value` goes. -/
def removeClass (value : String) (classes : List String) : List String :=
  classes.filter (fun c => !((classesToArray value).contains c))

/-- jQuery `.addClass(value)` on one class attribute: each class name of
`value` is appended unless it is there already; no class name, no change. -/
def addClass (value : String) (classes : List String) : List String :=
  (classesToArray value).foldl (fun cur c => if cur.contains c then cur else cur ++ [c]) classes

/-- jQuery `.hasClass(selector)` on one element: whether `" " + selector + " "`
occurs in the class names joined by single spaces between two spaces.  For an
empty selector that is so when the element has no class; for a selector
without white space, when it is one of the class names; for class names
joined by single spaces, when they occur in a row. -/
def hasClassOne (selector : String) (classes : List String) : Bool :=
  if selector = "" then classes.isEmpty
  else if selector.data.all (fun c => !isHtmlWhite c) then classes.contains selector
  else if selector.data.all (fun c => !isHtmlWhite c || c.toNat == 32) then
    let parts := splitSpaces selector.data []
    !parts.contains "" && classes.tails.any (fun rest => parts.isPrefixOf rest)
  else false

/-- jQuery `.hasClass(selector)` on a set of elements: true when ANY element
of the set has it. -/
def hasClass (selector : String) (set : List Header) : Bool :=
  set.any (fun h => hasClassOne selector h.classes)

/-- What the selector engine makes of a selector built around
`[data-column="${currentColumn}"]`. -/
inductive Selected where
  | matching (value : String)
  | syntaxError
deriving DecidableEq, Repr

/-- The characters CSS rewrites before it reads a selector: the null
character, line feed, form feed and carriage return. -/
def isLineBreak (c : Char) : Bool :=
  c.toNat == 0 || c.toNat == 10 || c.toNat == 12 || c.toNat == 13

/-- The selector `[data-column="${currentColumn}"]`.  Without a quote and a
backslash in the column the text between the quotes is the attribute value
asked for.  When the first of them is a quote that is not followed by white
space or `]`, the attribute selector ends there without its bracket and the
engine throws a syntax error.  The other columns (escapes, a quote that closes
the bracket, line breaks and the null character, on which selector engines
differ) are outside the model: `none`. -/
def attributeSelector (currentColumn : String) : Option Selected :=
  if currentColumn.data.any isLineBreak then none
  else
    match currentColumn.data.dropWhile (fun c => !(c.toNat == 34 || c.toNat == 92)) with
    | [] => some (Selected.matching currentColumn)
    | c :: rest =>
        if c.toNat == 34 then
          match rest with
          | [] => some Selected.syntaxError
          | d :: _ => if isHtmlWhite d || d.toNat == 93 then none else some Selected.syntaxError
        else none

/-- The header has the attribute `data-column` with the value asked for. -/
def matchesColumn (value : String) (h : Header) : Bool :=
  h.dataColumn == some value

/-- The chain `.removeClass('asc desc').find('.sort-indicator').remove()` on
one header. -/
def stripHeader (h : Header) : Header :=
  { h with classes := removeClass "asc desc" h.classes, indicators := [] }

/-- The expression `currentDirection === 'asc' ? '↑' : '↓'`. -/
def arrow (currentDirection : String) : String :=
  if currentDirection = "asc" then "↑" else "↓"

/-- The body of `if (!currentHeader.hasClass(currentDirection))` on one header
of the current set: classes swapped, indicators removed, one span appended
unless the direction is `none`. -/
def refreshHeader (currentDirection : String) (h : Header) : Header :=
  { h with
    classes := addClass currentDirection (removeClass "asc desc" h.classes),
    indicators := if currentDirection ≠ "none" then [arrow currentDirection] else [] }

/-- One record per node that `.find('.sort-indicator').remove()` detaches. -/
def removalRecords (set : List Header) : List MutationRecord :=
  (set.map (fun h => h.indicators)).flatten.map (fun _ => ⟨0, 1⟩)

/-- One record per element that `.append(span)` appends to. -/
def appendRecords (set : List Header) : List MutationRecord :=
  set.map (fun _ => ⟨1, 0⟩)

/-- The body of the `try` block of `updateSortIndicators()` when the two
selectors select by the attribute value `value`: the document after it and the
mutation records it queued for the observer. -/
def tryBlock (value : String) (dom : Dom) : Dom × List MutationRecord :=
  let currentDirection := dom.sort_direction
  let others := dom.headers.filter (fun h => !(matchesColumn value h))
  let stripped := dom.headers.map
    (fun h => if matchesColumn value h then h else stripHeader h)
  let currentHeader := stripped.filter (matchesColumn value)
  if !(hasClass currentDirection currentHeader) then
    let refreshed := stripped.map
      (fun h => if matchesColumn value h then refreshHeader currentDirection h else h)
    let appended := if currentDirection ≠ "none" then appendRecords currentHeader else []
    ({ dom with headers := refreshed },
      removalRecords others ++ removalRecords currentHeader ++ appended)
  else
    ({ dom with headers := stripped }, removalRecords others)

/-- The function `updateSortIndicators()`: the document after the call and the
mutation records the call queued.  When the first selector throws, the `catch`
block logs the error and the document is as it was.  The result is `none` for
the columns `attributeSelector` does not cover. -/
def updateSortIndicators (dom : Dom) : Option (Dom × List MutationRecord) :=
  match attributeSelector dom.sort_column with
  | none => none
  | some Selected.syntaxError => some (dom, [])
  | some (Selected.matching value) => some (tryBlock value dom)

/-- What `handleSort` leaves behind: the document, the ids of the inputs on
which `change` was triggered (in order), and the queued mutation records. -/
structure SortOutcome where
  dom : Dom
  changed : List String
  mutations : List MutationRecord
deriving DecidableEq, Repr

/-- The `let newDirection` of `handleSort(column)`: `desc` when the column is
strictly equal to the value of `#sort_column` and the direction is `asc`,
`asc` otherwise. -/
def newDirection (column : JsValue) (dom : Dom) : String :=
  let currentColumn := dom.sort_column
  let currentDirection := dom.sort_direction
  if column = JsValue.string currentColumn ∧ currentDirection = "asc" then "desc" else "asc"

/-- What `#sort_column` holds after `.val(text)`: the text itself when it has
no line feed and no carriage return.  A text input drops them and a hidden
input keeps them, so such texts are outside the model: `none`. -/
def storedValue (text : String) : Option String :=
  if text.data.any (fun c => c.toNat == 10 || c.toNat == 13) then none else some text

/-- The document once `handleSort(column)` has written the two inputs. -/
def writeInputs (stored : String) (column : JsValue) (dom : Dom) : Dom :=
  { dom with sort_column := stored, sort_direction := newDirection column dom }

/-- The function `handleSort(column)`: reads the two inputs, writes the clicked
column and the toggled direction back, then re-renders the indicators. -/
def handleSort (column : JsValue) (dom : Dom) : Option SortOutcome :=
  (storedValue (valText column)).bind (fun stored =>
    (updateSortIndicators (writeInputs stored column dom)).map
      (fun rendered =>
        { dom := rendered.1, changed := ["sort_column", "sort_direction"],
          mutations := rendered.2 }))

/-- The delegated `click` handler on a `th.sortable` with the given
`data-column` attribute: `handleSort($(this).data('column'))`. -/
def clickHeader (dataColumn : Option String) (dom : Dom) : Option SortOutcome :=
  (dataColumnValue dataColumn).bind (fun column => handleSort column dom)

/-- The document after `n` clicks on the header with the given `data-column`
attribute. -/
def clicks (dataColumn : Option String) : Nat → Dom → Option Dom
  | 0, dom => some dom
  | n + 1, dom =>
      (clicks dataColumn n dom).bind (fun d => (clickHeader dataColumn d).map (fun out => out.dom))

/-- The callback of the `MutationObserver`: one `updateSortIndicators()` for
every record whose `addedNodes` is not empty.  Returns the document and the
records those calls queued in turn. -/
def observer (mutations : List MutationRecord) (dom : Dom) :
    Option (Dom × List MutationRecord) :=
  mutations.foldl
    (fun acc mutation =>
      acc.bind (fun a =>
        if mutation.addedNodes ≠ 0 then
          (updateSortIndicators a.1).map (fun rendered => (rendered.1, a.2 ++ rendered.2))
        else some a))
    (some (dom, []))

/-- A header carries an indicator glyph when it has a `.sort-indicator`
descendant. -/
def carriesIndicator (h : Header) : Bool :=
  !h.indicators.isEmpty

/-- The three values of `sort_direction`. -/
def sortDirections : List String := ["asc", "desc", "none"]

/-- The glyph the specification gives a direction: `↑` for `asc`, `↓` for
`desc`, none for any other value. -/
def glyphOf (direction : String) : Option String :=
  if direction = "asc" then some "↑" else if direction = "desc" then some "↓" else none

/-- Exactly one header carries an indicator and it is the single glyph of the
direction; for a direction without glyph, no header carries one. -/
def indicatorsMatch (direction : String) (headers : List Header) : Bool :=
  match glyphOf direction, headers.filter carriesIndicator with
  | some glyph, [h] => h.indicators == [glyph]
  | none, [] => true
  | _, _ => false

/-- A header as the re-render leaves a header of another column: neither
`asc` nor `desc`, no indicator. -/
def strippedClean (h : Header) : Prop :=
  "asc" ∉ h.classes ∧ "desc" ∉ h.classes ∧ h.indicators = []

/-- A header that shows the direction: it has the class of the direction, no
other class among `asc` and `desc`, and as indicators exactly the glyph of the
direction (`↑` for `asc`, `↓` for `desc`, none for `none`). -/
def showsDirection (direction : String) (h : Header) : Prop :=
  direction ∈ h.classes ∧
  (∀ x, x = "asc" ∨ x = "desc" → x ∈ h.classes → x = direction) ∧
  h.indicators = (glyphOf direction).toList

/-- The re-render rule between a header before (`h`) and after (`h1`) the call,
with the third part asked of every header of the current column that lacks the
class of the direction. -/
def rerendered (column direction : String) (h h1 : Header) : Prop :=
  h1.dataColumn = h.dataColumn ∧
  (h.dataColumn ≠ some column → strippedClean h1) ∧
  (h.dataColumn = some column → direction ∈ h.classes → h1 = h) ∧
  (h.dataColumn = some column → direction ∉ h.classes → showsDirection direction h1)

/-- What one call of `updateSortIndicators()` does to one header when the
selectors select by `column`, given whether some header of the current set has
the class of the direction: headers of other columns are stripped, the headers
of the current column are left alone when the guard finds the class and
refreshed when it does not. -/
def rerenderOne (column direction : String) (anyHas : Bool) (h : Header) : Header :=
  if matchesColumn column h then
    (if anyHas then h else refreshHeader direction h)
  else stripHeader h

/-- The column holds no quote, no backslash, no line break and no null
character: the interpolated selector is the attribute selector for the column
itself. -/
def selectorSafe (column : String) : Bool :=
  column.data.all (fun c => !(c.toNat == 34 || c.toNat == 92) && !isLineBreak c)

/-- The column made of the letter a, a double quote and the letter b. -/
def quotedColumn : String :=
  String.mk [Char.ofNat 97, Char.ofNat 34, Char.ofNat 98]

/-! ## Loading overlay (`www/script.js`, lines 138-144) -/

/-- The handler registered for the custom message `toggleLoading`.  The
argument is `style.display` of the element `#table-loading`, `none` when
`document.getElementById('table-loading')` finds no element; the handler
touches nothing else. -/
def toggleLoading (show_ : Bool) (loadingEl : Option String) : Option String :=
  match loadingEl with
  | some _ => some (if show_ then "flex" else "none")
  | none => none

/-! ## Search debouncer (`www/script.js`, lines 177-192) -/

/-- The calls `Shiny.setInputValue(key, value)` the debouncer makes. -/
inductive Message where
  | loading (flag : Bool)
  | product_search (value : String)
deriving DecidableEq, Repr

/-- The two functions the script passes to `setTimeout`: the outer one sends
the search value and starts the inner one, the inner one clears the loading
flag. -/
inductive Callback where
  | search
  | clearLoading
deriving DecidableEq, Repr

/-- A pending timer: the handle `setTimeout` returned, the time in
milliseconds at which it is due, and its callback. -/
structure Timer where
  handle : Nat
  due : Nat
  callback : Callback
deriving DecidableEq, Repr

/-- The page as the debouncer sees it: the value of `input#product_search`,
the variable `searchTimeout` (`none` while it is `undefined`), the next free
timer handle, the pending timers in creation order, and the messages sent so
far, each with the time it was sent at. -/
structure Debouncer where
  value : String
  searchTimeout : Option Nat
  nextHandle : Nat
  timers : List Timer
  sent : List (Nat × Message)
deriving DecidableEq, Repr

/-- The page right after the script has run: no keystroke yet, no timer. -/
def Debouncer.initial : Debouncer :=
  { value := "", searchTimeout := none, nextHandle := 0, timers := [], sent := [] }

/-- The call `Shiny.setInputValue(...)` at time `now`. -/
def setInputValue (now : Nat) (m : Message) (s : Debouncer) : Debouncer :=
  { s with sent := s.sent ++ [(now, m)] }

/-- The call `setTimeout(callback, delay)` at time `now`: a fresh handle, the
timer queued behind the pending ones. -/
def setTimeout (now delay : Nat) (callback : Callback) (s : Debouncer) : Nat × Debouncer :=
  (s.nextHandle,
    { s with nextHandle := s.nextHandle + 1,
             timers := s.timers ++ [⟨s.nextHandle, now + delay, callback⟩] })

/-- The call `clearTimeout(handle)`: the pending timer with that handle, if
any, is dropped; `undefined` and handles of timers that already ran drop
nothing. -/
def clearTimeout (handle : Option Nat) (s : Debouncer) : Debouncer :=
  { s with timers := s.timers.filter (fun t => some t.handle != handle) }

/-- The `input` listener, run at time `now` after the browser has put
`newValue` into the field. -/
def onInput (now : Nat) (newValue : String) (s : Debouncer) : Debouncer :=
  let s := { s with value := newValue }
  let s := clearTimeout s.searchTimeout s
  let s := setInputValue now (Message.loading true) s
  let started := setTimeout now 300 Callback.search s
  { started.2 with searchTimeout := some started.1 }

/-- Running the callback of a timer at the time it is due. -/
def fire (t : Timer) (s : Debouncer) : Debouncer :=
  match t.callback with
  | Callback.search =>
      let s := setInputValue t.due (Message.product_search s.value) s
      (setTimeout t.due 300 Callback.clearLoading s).2
  | Callback.clearLoading =>
      setInputValue t.due (Message.loading false) s

/-- The pending timer the event loop runs next: the one due first, the one
created first among those due together. -/
def earliest : List Timer → Option Timer
  | [] => none
  | t :: ts =>
      match earliest ts with
      | none => some t
      | some u => if u.due < t.due then some u else some t

/-- The event loop running timers in order of their due time, those started
on the way included, up to the time `limit` when one is given and until none
is left otherwise. -/
def runTimers : Nat → Option Nat → Debouncer → Debouncer
  | 0, _, s => s
  | fuel + 1, limit, s =>
      match earliest s.timers with
      | none => s
      | some t =>
          if limit.all (fun stop => t.due ≤ stop) then
            runTimers fuel limit (fire t { s with timers := s.timers.erase t })
          else s

/-- The event loop with all the steps it can need: a search timer runs once
and starts one timer that starts none, so twice the number of pending timers
is enough. -/
def settle (limit : Option Nat) (s : Debouncer) : Debouncer :=
  runTimers (2 * s.timers.length) limit s

/-- A keystroke `(time, value of the field after it)` arriving: the timers due
by then run first, then the `input` listener. -/
def keystroke (s : Debouncer) (key : Nat × String) : Debouncer :=
  onInput key.1 key.2 (settle (some key.1) s)

/-- The page after the keystrokes `keys` (in chronological order) and after
every timer they started has run. -/
def run (keys : List (Nat × String)) : Debouncer :=
  settle none (keys.foldl keystroke Debouncer.initial)

/-- The messages sent for the keystrokes `keys`, in the order sent, each with
its time. -/
def trace (keys : List (Nat × String)) : List (Nat × Message) :=
  (run keys).sent

/-- Whether a sent message is a `product_search` one. -/
def isProductSearch (m : Nat × Message) : Bool :=
  match m.2 with
  | Message.product_search _ => true
  | Message.loading _ => false

/-- Each keystroke follows the one before it by less than 300ms. -/
def rapid (keys : List (Nat × String)) : Prop :=
  List.Chain' (fun a b => a.1 ≤ b.1 ∧ b.1 < a.1 + 300) keys

/-- The page with exactly one timer pending, the search timer of the last
keystroke (handle `h`, keystroke at time `t`, field value `v`). -/
def armed (h t : Nat) (v : String) (sent : List (Nat × Message)) : Debouncer :=
  { value := v, searchTimeout := some h, nextHandle := h + 1,
    timers := [⟨h, t + 300, Callback.search⟩], sent := sent }

/-- The page after the search timer of `armed h t v sent` and the timer it
started have both run. -/
def quiet (h t : Nat) (v : String) (sent : List (Nat × Message)) : Debouncer :=
  { value := v, searchTimeout := some h, nextHandle := h + 2, timers := [],
    sent := sent ++ [(t + 300, Message.product_search v), (t + 600, Message.loading false)] }

/-- Handles are fresh: every pending timer has a handle below the next free
one, and so has `searchTimeout`, which names no timer but a search timer. -/
def handlesFresh (s : Debouncer) : Prop :=
  (∀ x ∈ s.timers, x.handle < s.nextHandle) ∧
  (∀ h, s.searchTimeout = some h →
    h < s.nextHandle ∧ ∀ x ∈ s.timers, x.handle = h → x.callback = Callback.search)

/-- Every `product_search` message sent at `t` is followed in the log by
`loading = false` at `t + 300`, or the timer that will send it is pending. -/
def clearFollows (s : Debouncer) : Prop :=
  ∀ (t : Nat) (v : String), (t, Message.product_search v) ∈ s.sent →
    List.Sublist [(t, Message.product_search v), (t + 300, Message.loading false)] s.sent ∨
    ∃ x ∈ s.timers, x.callback = Callback.clearLoading ∧ x.due = t + 300

/-- No pending timer is due before the time `start`. -/
def notBefore (start : Nat) (s : Debouncer) : Prop :=
  ∀ x ∈ s.timers, start ≤ x.due

/-- The timer steps one timer can still take: a search timer runs and starts
a timer that runs. -/
def steps (t : Timer) : Nat :=
  match t.callback with
  | Callback.search => 2
  | Callback.clearLoading => 1

/-- How many timer steps the pending timers can still take. -/
def weight (timers : List Timer) : Nat :=
  (timers.map steps).sum

/-! ## Cache worker (`www/service-worker.js`) -/

/-- A URL: origin, path with query, and fragment. -/
structure Url where
  origin : String
  path : String
  fragment : Option String
deriving DecidableEq, Repr

/-- A request: method, URL and headers (names in lower case). -/
structure Request where
  method : String
  url : Url
  headers : List (String × String)
deriving DecidableEq, Repr

/-- A response: status code, the field names of its `Vary` header (in lower
case, none without the header) and body. -/
structure Response where
  status : Nat
  vary : List String
  body : String
deriving DecidableEq, Repr

/-- The flag `response.ok`: a status from 200 to 299. -/
def Response.ok (r : Response) : Bool :=
  decide (200 ≤ r.status) && decide (r.status ≤ 299)

/-- The responses `cache.addAll` takes: an ok status other than 206, and no
`*` in `Vary`. -/
def Response.addable (r : Response) : Bool :=
  r.ok && r.status != 206 && !(r.vary.contains "*")

/-- The network as the worker sees it: `fetch(request)` resolves with a
response or rejects (`none`). -/
abbrev Network := Request → Option Response

/-- A cache: the list of its entries, request and response, in the order they
were put. -/
abbrev Cache := List (Request × Response)

/-- The cache storage of the origin: the named caches in creation order. -/
abbrev CacheStorage := List (String × Cache)

/-- The name the worker opens. -/
def cacheName : String := "amazon-reviews-v1"

/-- The list the worker passes to `cache.addAll`. -/
def assets : List String := ["/", "/service.js", "/styles.css"]

/-- The request `addAll` makes of one of the URL strings, resolved against the
origin of the worker: a `GET` without fragment and without headers. -/
def Request.get (origin path : String) : Request :=
  { method := "GET", url := { origin := origin, path := path, fragment := none }, headers := [] }

/-- The values a header list has for a header name, in order; none when the
request does not have the header. -/
def headerValues (name : String) (headers : List (String × String)) : List String :=
  (headers.filter (fun e => e.1 == name)).map (fun e => e.2)

/-- Whether a request matches a cached entry, as `cache.match` decides it with
its default options: the request is a `GET`, the URLs are equal up to the
fragment, and for every field name of the cached response's `Vary` the two
requests carry the same value (`*` never matches). -/
def requestMatches (request : Request) (entry : Request × Response) : Bool :=
  request.method == "GET" &&
  request.url.origin == entry.1.url.origin && request.url.path == entry.1.url.path &&
  entry.2.vary.all (fun field =>
    field != "*" && headerValues field request.headers == headerValues field entry.1.headers)

/-- The method `cache.match(request)`: the response of the first entry that
matches. -/
def Cache.lookup (cache : Cache) (request : Request) : Option Response :=
  (cache.find? (requestMatches request)).map (fun e => e.2)

/-- The method `cache.put(request, response)`: the entries the request matches
are removed and the new entry is added. -/
def Cache.put (cache : Cache) (request : Request) (response : Response) : Cache :=
  cache.filter (fun e => !(requestMatches request e)) ++ [(request, response)]

/-- The responses `cache.addAll(urls)` fetches: `none` as soon as one fetch
rejects or answers with a response `addAll` does not take. -/
def fetchAll (origin : String) (net : Network) : List String → Option (List (Request × Response))
  | [] => some []
  | url :: urls =>
      match net (Request.get origin url) with
      | none => none
      | some response =>
          if response.addable then
            (fetchAll origin net urls).map (fun rest => (Request.get origin url, response) :: rest)
          else none

/-- The method `cache.addAll(urls)`: all or nothing; `none` when it rejects,
because a response is missing or not taken, or because the storage has no room
for the entries (`quota` false). -/
def Cache.addAll (origin : String) (net : Network) (quota : Bool) (urls : List String)
    (cache : Cache) : Option Cache :=
  (fetchAll origin net urls).bind (fun fetched =>
    if quota then some (fetched.foldl (fun c e => Cache.put c e.1 e.2) cache) else none)

/-- The method `caches.open(name)`: the cache of that name, created empty when
the storage has none. -/
def cachesOpen (name : String) (storage : CacheStorage) : CacheStorage × Cache :=
  match storage.find? (fun e => e.1 == name) with
  | some e => (storage, e.2)
  | none => (storage ++ [(name, [])], [])

/-- Writing a cache back under its name. -/
def cachesStore (name : String) (cache : Cache) (storage : CacheStorage) : CacheStorage :=
  storage.map (fun e => if e.1 == name then (name, cache) else e)

/-- The method `caches.match(request)`: the first match over the caches of the
storage in creation order. -/
def cachesMatch (storage : CacheStorage) (request : Request) : Option Response :=
  storage.findSome? (fun e => Cache.lookup e.2 request)

/-- The `install` listener of the worker of `origin`: the storage afterwards,
and whether the promise given to `event.waitUntil` was fulfilled (the install
succeeds) or rejected. -/
def onInstall (origin : String) (net : Network) (quota : Bool) (storage : CacheStorage) :
    CacheStorage × Bool :=
  let opened := cachesOpen cacheName storage
  match Cache.addAll origin net quota assets opened.2 with
  | some cache => (cachesStore cacheName cache opened.1, true)
  | none => (opened.1, false)

/-- What the `fetch` listener leaves behind: the storage, the response given
to `event.respondWith` (`none` when the promise rejects), and the requests
that went to the network. -/
structure FetchOutcome where
  storage : CacheStorage
  response : Option Response
  network : List Request
deriving DecidableEq, Repr

/-- The `fetch` listener. -/
def onFetch (net : Network) (storage : CacheStorage) (request : Request) : FetchOutcome :=
  match cachesMatch storage request with
  | some response => { storage := storage, response := some response, network := [] }
  | none => { storage := storage, response := net request, network := [request] }

/-- An event delivered to the worker, with the network (and for an install the
room in the storage) as it is then. -/
inductive WorkerEvent where
  | install (net : Network) (quota : Bool)
  | fetch (net : Network) (request : Request)

/-- The storage after one worker event. -/
def workerStep (origin : String) (storage : CacheStorage) : WorkerEvent → CacheStorage
  | WorkerEvent.install net quota => (onInstall origin net quota storage).1
  | WorkerEvent.fetch net request => (onFetch net storage request).storage

/-- The storage after a history of worker events on an origin whose cache
storage started empty. -/
def runWorker (origin : String) (events : List WorkerEvent) : CacheStorage :=
  events.foldl (workerStep origin) []

/-- The cache the worker named, as found in a storage. -/
def workerCache (storage : CacheStorage) : Cache :=
  ((storage.find? (fun e => e.1 == cacheName)).map (fun e => e.2)).getD []

/-- The storage after an install that follows a history of worker events. -/
def installed (origin : String) (events : List WorkerEvent) (net : Network) (quota : Bool) :
    CacheStorage × Bool :=
  onInstall origin net quota (runWorker origin events)

/-- A cache that holds exactly the three assets, each with a response without
`*` in `Vary`. -/
def holdsAssets (origin : String) (cache : Cache) : Prop :=
  ∃ a b c : Response,
    cache = [(Request.get origin "/", a), (Request.get origin "/service.js", b),
      (Request.get origin "/styles.css", c)] ∧
    a.addable = true ∧ b.addable = true ∧ c.addable = true

/-- The shape every storage of the worker has: empty, or the one cache the
worker named, itself empty or holding exactly the three assets. -/
def storageShape (origin : String) (storage : CacheStorage) : Prop :=
  storage = [] ∨
  ∃ cache : Cache, storage = [(cacheName, cache)] ∧ (cache = [] ∨ holdsAssets origin cache)

/-! ## Event relay (`Project2Deployment/www/service.js`, lines 14-35) -/

/-- The payload of a relayed message: a value passed on as it came, or the
object with the fields `lat` and `lng`. -/
inductive Payload (α : Type) where
  | value (v : α)
  | latLng (lat lng : α)
deriving DecidableEq, Repr

/-- The object `e.latlng` of a map click. -/
structure LatLng (α : Type) where
  lat : α
  lng : α
deriving DecidableEq, Repr

/-- The argument of `handleMapClick`: its field `latlng`, `none` when the
field is `undefined`. -/
structure MapClick (α : Type) where
  latlng : Option (LatLng α)
deriving DecidableEq, Repr

/-- The argument of `handleZoomEnd`: its field `target`, `none` when the field
is `undefined`, otherwise what `target.getZoom()` returns. -/
structure ZoomEnd (α : Type) where
  target : Option α
deriving DecidableEq, Repr

/-- The error a handler can raise: reading a property of `undefined`. -/
inductive JsError where
  | typeError
deriving DecidableEq, Repr

/-- The function `handleMapClick(e)`; `shiny` tells whether `window.Shiny` is
there, the result lists the `Shiny.setInputValue(key, payload)` calls made. -/
def handleMapClick {α : Type} (shiny : Bool) (e : MapClick α) :
    Except JsError (List (String × Payload α)) :=
  if shiny then
    match e.latlng with
    | some p => Except.ok [("map_click", Payload.latLng p.lat p.lng)]
    | none => Except.error JsError.typeError
  else Except.ok []

/-- The function `handleZoomEnd(e)`. -/
def handleZoomEnd {α : Type} (shiny : Bool) (e : ZoomEnd α) :
    Except JsError (List (String × Payload α)) :=
  if shiny then
    match e.target with
    | some zoom => Except.ok [("map_zoom", Payload.value zoom)]
    | none => Except.error JsError.typeError
  else Except.ok []

/-- The function `handleRowClick(propertyId)`. -/
def handleRowClick {α : Type} (shiny : Bool) (propertyId : α) :
    Except JsError (List (String × Payload α)) :=
  if shiny then Except.ok [("selected_property", Payload.value propertyId)]
  else Except.ok []

/-! ## Theorems: sort-indicator controller -/

theorem classesToArray_asc_desc : classesToArray "asc desc" = ["asc", "desc"] := by
  decide

theorem removeClass_asc_desc (classes : List String) :
    removeClass "asc desc" classes =
      classes.filter (fun c => !(["asc", "desc"].contains c)) := by
  unfold removeClass
  rw [classesToArray_asc_desc]

theorem hasClassOne_direction (direction : String) (hdir : direction ∈ sortDirections)
    (classes : List String) : hasClassOne direction classes = classes.contains direction := by
  simp only [sortDirections, List.mem_cons, List.mem_singleton, List.not_mem_nil,
    or_false] at hdir
  rcases hdir with rfl | rfl | rfl <;> rfl

theorem addClass_direction (direction : String) (hdir : direction ∈ sortDirections)
    (classes : List String) :
    addClass direction classes =
      if classes.contains direction then classes else classes ++ [direction] := by
  simp only [sortDirections, List.mem_cons, List.mem_singleton, List.not_mem_nil,
    or_false] at hdir
  rcases hdir with rfl | rfl | rfl <;> rfl

theorem attributeSelector_safe (column : String) (hsafe : selectorSafe column = true) :
    attributeSelector column = some (Selected.matching column) := by
  unfold attributeSelector
  have hall := List.all_eq_true.mp hsafe
  have hbreak : column.data.any isLineBreak = false := by
    rw [List.any_eq_false]
    intro c hc
    have := hall c hc
    simp only [Bool.and_eq_true, Bool.not_eq_true'] at this
    rw [this.2]
    simp
  have hdrop : column.data.dropWhile (fun c => !(c.toNat == 34 || c.toNat == 92)) = [] := by
    rw [List.dropWhile_eq_nil_iff]
    intro c hc
    have := hall c hc
    simp only [Bool.and_eq_true] at this
    exact this.1
  rw [hbreak, hdrop]
  rfl

theorem storedValue_safe (column : String) (hsafe : selectorSafe column = true) :
    storedValue column = some column := by
  unfold storedValue
  have hall := List.all_eq_true.mp hsafe
  have hbreak : column.data.any (fun c => c.toNat == 10 || c.toNat == 13) = false := by
    rw [List.any_eq_false]
    intro c hc
    have := hall c hc
    simp only [Bool.and_eq_true, Bool.not_eq_true', isLineBreak, Bool.or_eq_false_iff]
      at this
    simp [this.2.1.1.2, this.2.2]
  rw [hbreak]
  rfl

theorem updateSortIndicators_safe (dom : Dom) (hsafe : selectorSafe dom.sort_column = true) :
    updateSortIndicators dom = some (tryBlock dom.sort_column dom) := by
  unfold updateSortIndicators
  rw [attributeSelector_safe _ hsafe]

theorem tryBlock_sort_column (value : String) (dom : Dom) :
    (tryBlock value dom).1.sort_column = dom.sort_column := by
  unfold tryBlock
  simp only
  split <;> rfl

theorem tryBlock_sort_direction (value : String) (dom : Dom) :
    (tryBlock value dom).1.sort_direction = dom.sort_direction := by
  unfold tryBlock
  simp only
  split <;> rfl

theorem updateSortIndicators_inputs (dom : Dom) (r : Dom × List MutationRecord)
    (hr : updateSortIndicators dom = some r) :
    r.1.sort_column = dom.sort_column ∧ r.1.sort_direction = dom.sort_direction := by
  unfold updateSortIndicators at hr
  split at hr
  · exact absurd hr (by simp)
  · simp only [Option.some.injEq] at hr
    rw [← hr]
    exact ⟨rfl, rfl⟩
  · simp only [Option.some.injEq] at hr
    rw [← hr]
    exact ⟨tryBlock_sort_column _ dom, tryBlock_sort_direction _ dom⟩

theorem matchesColumn_iff (column : String) (h : Header) :
    matchesColumn column h = true ↔ h.dataColumn = some column := by
  simp [matchesColumn]

theorem matchesColumn_stripHeader (column : String) (h : Header) :
    matchesColumn column (stripHeader h) = matchesColumn column h := rfl

theorem matchesColumn_refreshHeader (column direction : String) (h : Header) :
    matchesColumn column (refreshHeader direction h) = matchesColumn column h := rfl

theorem matchesColumn_rerenderOne (column direction : String) (anyHas : Bool) (h : Header) :
    matchesColumn column (rerenderOne column direction anyHas h) = matchesColumn column h := by
  unfold rerenderOne
  split
  · split
    · rfl
    · rfl
  · rfl

theorem filter_current_stripped (column : String) (hs : List Header) :
    (hs.map (fun h => if matchesColumn column h then h else stripHeader h)).filter
        (matchesColumn column) = hs.filter (matchesColumn column) := by
  induction hs with
  | nil => rfl
  | cons h t ih =>
    by_cases hm : matchesColumn column h = true
    · simp only [List.map_cons, hm, if_true, List.filter_cons_of_pos, ih]
    · have hs2 : matchesColumn column (stripHeader h) = false := by
        rw [matchesColumn_stripHeader]; simpa using hm
      simp only [List.map_cons, hm, if_false, List.filter_cons, hs2, ih]
      simp [hs2]

theorem tryBlock_headers (value : String) (dom : Dom) :
    (tryBlock value dom).1.headers =
      dom.headers.map (rerenderOne value dom.sort_direction
        (hasClass dom.sort_direction (dom.headers.filter (matchesColumn value)))) := by
  unfold tryBlock
  simp only [filter_current_stripped]
  by_cases hany :
      hasClass dom.sort_direction (dom.headers.filter (matchesColumn value)) = true
  · simp only [hany, Bool.not_true, if_false, Bool.false_eq_true]
    apply List.map_congr_left
    intro h _
    simp [rerenderOne]
  · have hany2 :
        hasClass dom.sort_direction (dom.headers.filter (matchesColumn value)) = false := by
      simpa using hany
    simp only [hany2, Bool.not_false, if_true, List.map_map]
    apply List.map_congr_left
    intro h _
    by_cases hm : matchesColumn value h = true
    · simp [rerenderOne, hm]
    · have hs2 : matchesColumn value (stripHeader h) = false := by
        rw [matchesColumn_stripHeader]; simpa using hm
      simp [rerenderOne, hm, hs2]

theorem strippedClean_stripHeader (h : Header) : strippedClean (stripHeader h) := by
  simp [strippedClean, stripHeader, removeClass_asc_desc]

theorem mem_classes_refreshHeader (direction : String) (hdir : direction ∈ sortDirections)
    (h : Header) : direction ∈ (refreshHeader direction h).classes := by
  simp only [refreshHeader, addClass_direction direction hdir]
  split
  · simp_all
  · simp

theorem showsDirection_refreshHeader (direction : String) (h : Header)
    (hdir : direction ∈ sortDirections) :
    showsDirection direction (refreshHeader direction h) := by
  refine ⟨mem_classes_refreshHeader direction hdir h, ?_, ?_⟩
  · intro x hx hmem
    simp only [refreshHeader, addClass_direction direction hdir, removeClass_asc_desc] at hmem
    split at hmem
    · rcases hx with rfl | rfl <;> simp at hmem
    · rcases List.mem_append.mp hmem with h1 | h1
      · rcases hx with rfl | rfl <;> simp at h1
      · simpa using h1
  · simp only [sortDirections, List.mem_cons, List.mem_singleton, List.not_mem_nil,
      or_false] at hdir
    rcases hdir with rfl | rfl | rfl <;> simp [refreshHeader, arrow, glyphOf]

theorem rerenderOne_dataColumn (column direction : String) (anyHas : Bool) (h : Header) :
    (rerenderOne column direction anyHas h).dataColumn = h.dataColumn := by
  unfold rerenderOne
  split
  · split
    · rfl
    · rfl
  · rfl

theorem hasClass_of_mem (direction : String) (hdir : direction ∈ sortDirections)
    (set : List Header) (h : Header) (hmem : h ∈ set) (hcls : direction ∈ h.classes) :
    hasClass direction set = true := by
  simp only [hasClass, List.any_eq_true]
  refine ⟨h, hmem, ?_⟩
  rw [hasClassOne_direction direction hdir]
  simpa using hcls

theorem handleSort_inputs (column : JsValue) (dom : Dom) (out : SortOutcome)
    (hout : handleSort column dom = some out) :
    out.dom.sort_column = valText column ∧
    out.dom.sort_direction =
      (if column = JsValue.string dom.sort_column ∧ dom.sort_direction = "asc"
        then "desc" else "asc") := by
  unfold handleSort at hout
  cases hs : storedValue (valText column) with
  | none => rw [hs] at hout; simp at hout
  | some stored =>
    have hstored : stored = valText column := by
      unfold storedValue at hs
      split at hs
      · exact absurd hs (by simp)
      · simp only [Option.some.injEq] at hs
        exact hs.symm
    rw [hs] at hout
    simp only [Option.some_bind] at hout
    cases hr : updateSortIndicators (writeInputs stored column dom) with
    | none => rw [hr] at hout; simp at hout
    | some r =>
      rw [hr] at hout
      simp only [Option.map_some', Option.some.injEq] at hout
      have hin := updateSortIndicators_inputs _ r hr
      rw [← hout]
      exact ⟨hin.1.trans hstored, hin.2⟩

theorem handleSort_safe (column : JsValue) (dom : Dom)
    (hsafe : selectorSafe (valText column) = true) :
    handleSort column dom =
      some { dom := (tryBlock (valText column) (writeInputs (valText column) column dom)).1,
             changed := ["sort_column", "sort_direction"],
             mutations :=
               (tryBlock (valText column) (writeInputs (valText column) column dom)).2 } := by
  unfold handleSort
  have hw : selectorSafe (writeInputs (valText column) column dom).sort_column = true := hsafe
  rw [storedValue_safe _ hsafe]
  simp only [Option.some_bind]
  rw [updateSortIndicators_safe _ hw]
  rfl

theorem clickHeader_converted (data : String) (value : JsValue) (dom : Dom)
    (hget : getData data = some value) (hsafe : selectorSafe (valText value) = true) :
    ∃ out, clickHeader (some data) dom = some out ∧
      out.dom.sort_column = valText value ∧
      out.dom.sort_direction =
        (if value = JsValue.string dom.sort_column ∧ dom.sort_direction = "asc"
          then "desc" else "asc") := by
  have hclick : clickHeader (some data) dom = handleSort value dom := by
    simp [clickHeader, dataColumnValue, hget]
  rw [hclick, handleSort_safe value dom hsafe]
  refine ⟨_, rfl, ?_, ?_⟩
  · exact (handleSort_inputs value dom _ (handleSort_safe value dom hsafe)).1
  · exact (handleSort_inputs value dom _ (handleSort_safe value dom hsafe)).2

theorem clicks_converted (data : String) (value : JsValue)
    (hget : getData data = some value) (hsafe : selectorSafe (valText value) = true)
    (dom : Dom) (n : Nat) :
    ∃ d, clicks (some data) n dom = some d ∧ (0 < n → d.sort_column = valText value) := by
  induction n with
  | zero => exact ⟨dom, rfl, fun h => absurd h (by omega)⟩
  | succ k ih =>
    obtain ⟨d, hd, _⟩ := ih
    obtain ⟨out, hout, hcol, _⟩ := clickHeader_converted data value d hget hsafe
    refine ⟨out.dom, ?_, fun _ => hcol⟩
    simp [clicks, hd, hout]

theorem clicks_succ (data : String) (value : JsValue)
    (hget : getData data = some value) (hsafe : selectorSafe (valText value) = true)
    (dom d : Dom) (n : Nat) (hd : clicks (some data) n dom = some d) :
    ∃ d1, clicks (some data) (n + 1) dom = some d1 ∧
      d1.sort_column = valText value ∧
      d1.sort_direction =
        (if value = JsValue.string d.sort_column ∧ d.sort_direction = "asc"
          then "desc" else "asc") := by
  obtain ⟨out, hout, hcol, hdir⟩ := clickHeader_converted data value d hget hsafe
  refine ⟨out.dom, ?_, hcol, hdir⟩
  simp [clicks, hd, hout]

/-- C1 (what the code does): `handleSort(column)` writes the text of `column`
into `#sort_column` and writes `desc` exactly when `column` is a string equal
to the current column and the current direction is `asc`, `asc` otherwise,
never `none`; from ("price", "asc"), "price" gives `desc` and "name" gives
`asc`.  Clicks on a header whose `data-column` stays a string alternate.  But
the click handler passes `$(this).data('column')`: for `data-column="2024"`
that is the number 2024, never `===` the string of the input, and every click
on that header gives `asc`. -/
theorem handleSort_toggles_direction :
    (∀ (column : JsValue) (dom : Dom) (out : SortOutcome),
      handleSort column dom = some out →
        out.dom.sort_column = valText column ∧
        out.dom.sort_direction =
          (if column = JsValue.string dom.sort_column ∧ dom.sort_direction = "asc"
            then "desc" else "asc") ∧
        (out.dom.sort_direction = "desc" ↔
          (column = JsValue.string dom.sort_column ∧ dom.sort_direction = "asc")) ∧
        out.dom.sort_direction ≠ "none") ∧
    (∀ (column : JsValue) (dom : Dom), selectorSafe (valText column) = true →
      (handleSort column dom).isSome = true) ∧
    (∀ headers : List Header,
      (handleSort (JsValue.string "price") ⟨"price", "asc", headers⟩).map
          (fun out => out.dom.sort_direction) = some "desc" ∧
      (handleSort (JsValue.string "name") ⟨"price", "asc", headers⟩).map
          (fun out => out.dom.sort_direction) = some "asc") ∧
    (∀ (data : String) (dom : Dom) (n : Nat),
      getData data = some (JsValue.string data) → selectorSafe data = true →
      ∃ d1 d2, clicks (some data) (n + 1) dom = some d1 ∧
        clicks (some data) (n + 2) dom = some d2 ∧
        d1.sort_column = data ∧
        (d1.sort_direction = "asc" ∨ d1.sort_direction = "desc") ∧
        (d1.sort_direction = "asc" → d2.sort_direction = "desc") ∧
        (d1.sort_direction = "desc" → d2.sort_direction = "asc")) ∧
    (∀ (dom : Dom) (n : Nat),
      ∃ d, clicks (some "2024") (n + 1) dom = some d ∧
        d.sort_column = "2024" ∧ d.sort_direction = "asc") ∧
    (clicks (some "2024") 1 ⟨"name", "asc", [⟨some "2024", ["sortable"], []⟩]⟩).map
        (fun d => d.sort_direction) = some "asc" ∧
    (clicks (some "2024") 2 ⟨"name", "asc", [⟨some "2024", ["sortable"], []⟩]⟩).map
        (fun d => d.sort_direction) = some "asc" := by
  refine ⟨?_, ?_, ?_, ?_, ?_, by decide, by decide⟩
  · intro column dom out hout
    obtain ⟨hc, hd⟩ := handleSort_inputs column dom out hout
    refine ⟨hc, hd, ?_, ?_⟩
    · rw [hd]; split <;> simp_all
    · rw [hd]; split <;> simp
  · intro column dom hsafe
    rw [handleSort_safe column dom hsafe]
    rfl
  · intro headers
    have h1 := handleSort_safe (JsValue.string "price") ⟨"price", "asc", headers⟩ (by decide)
    have h2 := handleSort_safe (JsValue.string "name") ⟨"price", "asc", headers⟩ (by decide)
    constructor
    · rw [h1]
      simp only [Option.map_some', Option.some.injEq]
      exact (handleSort_inputs _ _ _ h1).2.trans (by simp)
    · rw [h2]
      simp only [Option.map_some', Option.some.injEq]
      exact (handleSort_inputs _ _ _ h2).2.trans (by simp)
  · intro data dom n hget hsafe
    have hsafe2 : selectorSafe (valText (JsValue.string data)) = true := hsafe
    obtain ⟨d0, hd0, _⟩ := clicks_converted data _ hget hsafe2 dom n
    obtain ⟨d1, hd1, hcol1, hdir1⟩ := clicks_succ data _ hget hsafe2 dom d0 n hd0
    obtain ⟨d2, hd2, _, hdir2⟩ := clicks_succ data _ hget hsafe2 dom d1 (n + 1) hd1
    have hcol1s : d1.sort_column = data := hcol1
    have hnext : d2.sort_direction = if d1.sort_direction = "asc" then "desc" else "asc" := by
      rw [hdir2, hcol1s]; simp
    refine ⟨d1, d2, hd1, hd2, hcol1s, ?_, ?_, ?_⟩
    · rw [hdir1]; split
      · right; rfl
      · left; rfl
    · intro h; rw [hnext, h]; simp
    · intro h; rw [hnext, h]; simp
  · intro dom n
    have hget : getData "2024" = some (JsValue.number "2024") := by decide
    have hsafe : selectorSafe (valText (JsValue.number "2024")) = true := by decide
    obtain ⟨d0, hd0, _⟩ := clicks_converted "2024" _ hget hsafe dom n
    obtain ⟨d1, hd1, hcol1, hdir1⟩ := clicks_succ "2024" _ hget hsafe dom d0 n hd0
    refine ⟨d1, hd1, hcol1, ?_⟩
    rw [hdir1]; simp

/-- C8 (as stated, refuted): with two headers of the column "price", the first
already of class `asc`, the guard `hasClass` is true for the set, so the second
one, which lacks `asc`, is not refreshed; and with the column a"b the selector
throws, the `catch` block leaves the document as it was, and the header of the
other column keeps `desc` and its arrow.  In both the rule as claimed fails. -/
theorem rerender_rule_fails_on_shared_column :
    (updateSortIndicators ⟨"price", "asc",
        [⟨some "price", ["sortable", "asc"], ["↑"]⟩, ⟨some "price", ["sortable"], []⟩]⟩ =
      some (⟨"price", "asc",
        [⟨some "price", ["sortable", "asc"], ["↑"]⟩, ⟨some "price", ["sortable"], []⟩]⟩, []) ∧
      ¬ List.Forall₂ (rerendered "price" "asc")
        [⟨some "price", ["sortable", "asc"], ["↑"]⟩, ⟨some "price", ["sortable"], []⟩]
        [⟨some "price", ["sortable", "asc"], ["↑"]⟩, ⟨some "price", ["sortable"], []⟩]) ∧
    (updateSortIndicators ⟨quotedColumn, "asc",
        [⟨some quotedColumn, ["sortable"], []⟩, ⟨some "name", ["sortable", "desc"], ["↓"]⟩]⟩ =
      some (⟨quotedColumn, "asc",
        [⟨some quotedColumn, ["sortable"], []⟩, ⟨some "name", ["sortable", "desc"], ["↓"]⟩]⟩,
        []) ∧
      ¬ List.Forall₂ (rerendered quotedColumn "asc")
        [⟨some quotedColumn, ["sortable"], []⟩, ⟨some "name", ["sortable", "desc"], ["↓"]⟩]
        [⟨some quotedColumn, ["sortable"], []⟩, ⟨some "name", ["sortable", "desc"], ["↓"]⟩]) := by
  refine ⟨⟨by decide, ?_⟩, ⟨by decide, ?_⟩⟩
  · intro hall
    have hsame := List.forall₂_same.mp hall ⟨some "price", ["sortable"], []⟩ (by simp)
    have hshow := hsame.2.2.2 rfl (by decide)
    exact absurd hshow.1 (by decide)
  · intro hall
    have hsame := List.forall₂_same.mp hall ⟨some "name", ["sortable", "desc"], ["↓"]⟩
      (by simp)
    have hclean := hsame.2.1 (by decide)
    exact absurd hclean.2.1 (by decide)

/-- C8 (amended): for a `sort_column` without quote, backslash and line break and a
direction among `asc`, `desc`, `none`, `updateSortIndicators()` runs its `try`
block to the end and, header by header: the `data-column` is kept; a header of
another column has neither `asc` nor `desc` and no indicator; a header of the
current column that has the class of the direction is unchanged; and when no
header of the current column has that class, every header of the current
column ends with the class of the direction as its only one of `asc`/`desc`
and with the one indicator of the direction (`↑`, `↓`, or none for `none`).
When at most one header has the current column, this is the rule as claimed. -/
theorem updateSortIndicators_rerender_rule (dom : Dom)
    (hsafe : selectorSafe dom.sort_column = true)
    (hdir : dom.sort_direction ∈ sortDirections) :
    ∃ r, updateSortIndicators dom = some r ∧
    List.Forall₂
      (fun h h1 =>
        h1.dataColumn = h.dataColumn ∧
        (h.dataColumn ≠ some dom.sort_column → strippedClean h1) ∧
        (h.dataColumn = some dom.sort_column → dom.sort_direction ∈ h.classes → h1 = h) ∧
        (h.dataColumn = some dom.sort_column →
          hasClass dom.sort_direction
            (dom.headers.filter (matchesColumn dom.sort_column)) = false →
          showsDirection dom.sort_direction h1))
      dom.headers r.1.headers ∧
    ((dom.headers.filter (matchesColumn dom.sort_column)).length ≤ 1 →
      List.Forall₂ (rerendered dom.sort_column dom.sort_direction)
        dom.headers r.1.headers) := by
  refine ⟨tryBlock dom.sort_column dom, updateSortIndicators_safe dom hsafe, ?_⟩
  rw [tryBlock_headers, List.forall₂_map_right_iff, List.forall₂_same]
  constructor
  · intro h hmem
    refine ⟨rerenderOne_dataColumn _ _ _ h, ?_, ?_, ?_⟩
    · intro hne
      have hm : matchesColumn dom.sort_column h = false := by
        simpa [matchesColumn] using hne
      simp only [rerenderOne, hm, Bool.false_eq_true, if_false]
      exact strippedClean_stripHeader h
    · intro hcol hcls
      have hm : matchesColumn dom.sort_column h = true := (matchesColumn_iff _ _).mpr hcol
      have hany := hasClass_of_mem dom.sort_direction hdir
        (dom.headers.filter (matchesColumn dom.sort_column)) h
        (List.mem_filter.mpr ⟨hmem, hm⟩) hcls
      simp [rerenderOne, hm, hany]
    · intro hcol hnone
      have hm : matchesColumn dom.sort_column h = true := (matchesColumn_iff _ _).mpr hcol
      simp only [rerenderOne, hm, hnone, if_true, Bool.false_eq_true, if_false]
      exact showsDirection_refreshHeader _ h hdir
  · intro hle
    rw [List.forall₂_map_right_iff, List.forall₂_same]
    intro h hmem
    refine ⟨rerenderOne_dataColumn _ _ _ h, ?_, ?_, ?_⟩
    · intro hne
      have hm : matchesColumn dom.sort_column h = false := by
        simpa [matchesColumn] using hne
      simp only [rerenderOne, hm, Bool.false_eq_true, if_false]
      exact strippedClean_stripHeader h
    · intro hcol hcls
      have hm : matchesColumn dom.sort_column h = true := (matchesColumn_iff _ _).mpr hcol
      have hany := hasClass_of_mem dom.sort_direction hdir
        (dom.headers.filter (matchesColumn dom.sort_column)) h
        (List.mem_filter.mpr ⟨hmem, hm⟩) hcls
      simp [rerenderOne, hm, hany]
    · intro hcol hcls
      have hm : matchesColumn dom.sort_column h = true := (matchesColumn_iff _ _).mpr hcol
      have hin : h ∈ dom.headers.filter (matchesColumn dom.sort_column) :=
        List.mem_filter.mpr ⟨hmem, hm⟩
      have hsingle : dom.headers.filter (matchesColumn dom.sort_column) = [h] := by
        match hf : dom.headers.filter (matchesColumn dom.sort_column) with
        | [] => rw [hf] at hin; exact absurd hin (List.not_mem_nil h)
        | [x] =>
          rw [hf] at hin
          rw [List.mem_singleton.mp hin]
        | x :: y :: rest =>
          rw [hf] at hle
          simp at hle
      have hnone : hasClass dom.sort_direction
          (dom.headers.filter (matchesColumn dom.sort_column)) = false := by
        rw [hsingle]
        simpa [hasClass, hasClassOne_direction dom.sort_direction hdir] using hcls
      simp only [rerenderOne, hm, hnone, if_true, Bool.false_eq_true, if_false]
      exact showsDirection_refreshHeader _ h hdir

/-- C8 (amended) at a concrete document with direction `desc`: the header of
"price" is refreshed, the header of "name" is stripped. -/
theorem updateSortIndicators_rerender_rule_witness :
    selectorSafe "price" = true ∧ "desc" ∈ sortDirections ∧
    ∃ r, updateSortIndicators ⟨"price", "desc",
        [⟨some "price", ["sortable", "asc"], ["↑"]⟩,
         ⟨some "name", ["sortable", "desc"], ["↓"]⟩]⟩ = some r ∧
      List.Forall₂ (rerendered "price" "desc")
        [⟨some "price", ["sortable", "asc"], ["↑"]⟩, ⟨some "name", ["sortable", "desc"], ["↓"]⟩]
        r.1.headers :=
  ⟨by decide, by decide,
    (updateSortIndicators_rerender_rule ⟨"price", "desc",
      [⟨some "price", ["sortable", "asc"], ["↑"]⟩,
       ⟨some "name", ["sortable", "desc"], ["↓"]⟩]⟩ (by decide) (by decide)).elim
      (fun r hr => ⟨r, hr.1, hr.2.2 (by decide)⟩)⟩

theorem filter_map_none (p q : Header → Bool) (f : Header → Header) (hs : List Header)
    (hp : hs.filter p = []) (hq : ∀ x, p x = false → q (f x) = false) :
    (hs.map f).filter q = [] := by
  induction hs with
  | nil => rfl
  | cons x t ih =>
    by_cases hx : p x = true
    · rw [List.filter_cons_of_pos hx] at hp
      exact absurd hp (List.cons_ne_nil _ _)
    · have hx2 : p x = false := by simpa using hx
      rw [List.filter_cons_of_neg hx] at hp
      have hqx : ¬ q (f x) = true := by rw [hq x hx2]; simp
      rw [List.map_cons, List.filter_cons_of_neg hqx]
      exact ih hp

theorem filter_map_single (p q : Header → Bool) (f : Header → Header) (hs : List Header)
    (h : Header) (hp : hs.filter p = [h]) (hq : ∀ x, p x = false → q (f x) = false)
    (hqh : q (f h) = true) :
    (hs.map f).filter q = [f h] := by
  induction hs with
  | nil => simp at hp
  | cons x t ih =>
    by_cases hx : p x = true
    · rw [List.filter_cons_of_pos hx] at hp
      have hxh : x = h := (List.cons.inj hp).1
      have ht : t.filter p = [] := (List.cons.inj hp).2
      subst hxh
      rw [List.map_cons, List.filter_cons_of_pos hqh, filter_map_none p q f t ht hq]
    · have hx2 : p x = false := by simpa using hx
      rw [List.filter_cons_of_neg hx] at hp
      have hqx : ¬ q (f x) = true := by rw [hq x hx2]; simp
      rw [List.map_cons, List.filter_cons_of_neg hqx]
      exact ih hp

/-- C2 (as stated, refuted): the header of "price" comes with the class `asc`
and no indicator while the inputs hold ("name", "asc").  A click on it writes
("price", "asc"); the guard finds the class and nothing is rendered: no header
carries a glyph after the toggle. -/
theorem sort_toggle_without_glyph :
    (clickHeader (some "price") ⟨"name", "asc",
        [⟨some "price", ["sortable", "asc"], []⟩, ⟨some "name", ["sortable"], []⟩]⟩).map
      (fun out => (out.dom.sort_direction,
        indicatorsMatch out.dom.sort_direction out.dom.headers,
        out.dom.headers.filter carriesIndicator)) = some ("asc", false, []) := by
  decide

/-- C2 (amended): after `handleSort(column)` for a column whose text holds
no quote, backslash or line break and is the `data-column` of exactly one header,
provided that header lacks the class of the new direction or already holds the
single glyph of the new direction, exactly one header carries an indicator
and it is the glyph of the new direction (`↑` for `asc`, `↓` for `desc`); the
new direction is never `none`. -/
theorem sort_toggle_single_indicator (column : JsValue) (dom : Dom) (h : Header)
    (hsafe : selectorSafe (valText column) = true)
    (hone : dom.headers.filter (matchesColumn (valText column)) = [h])
    (hmark : newDirection column dom ∉ h.classes ∨
      h.indicators = [arrow (newDirection column dom)]) :
    ∃ out, handleSort column dom = some out ∧
      out.dom.sort_direction = newDirection column dom ∧
      indicatorsMatch out.dom.sort_direction out.dom.headers = true ∧
      out.dom.sort_direction ≠ "none" := by
  refine ⟨_, handleSort_safe column dom hsafe, ?_⟩
  have hdirw :
      (tryBlock (valText column) (writeInputs (valText column) column dom)).1.sort_direction =
        newDirection column dom := tryBlock_sort_direction _ _
  simp only [hdirw]
  generalize hd : newDirection column dom = d at hmark
  have hd2 : d = "asc" ∨ d = "desc" := by
    rw [← hd]
    simp only [newDirection]
    split
    · right; rfl
    · left; rfl
  have hdir : d ∈ sortDirections := by
    rcases hd2 with rfl | rfl <;> decide
  have hheaders : (tryBlock (valText column) (writeInputs (valText column) column dom)).1.headers =
      dom.headers.map (rerenderOne (valText column) d (hasClass d [h])) := by
    rw [tryBlock_headers]
    have hh : (writeInputs (valText column) column dom).headers = dom.headers := rfl
    have hdd : (writeInputs (valText column) column dom).sort_direction =
        newDirection column dom := rfl
    rw [hh, hdd, hone, hd]
  have hglyph : glyphOf d = some (arrow d) := by
    rcases hd2 with rfl | rfl <;> decide
  have hnone : d ≠ "none" := by
    rcases hd2 with rfl | rfl <;> decide
  have hfh : (rerenderOne (valText column) d (hasClass d [h]) h).indicators = [arrow d] := by
    have hm : matchesColumn (valText column) h = true := by
      have : h ∈ dom.headers.filter (matchesColumn (valText column)) := by rw [hone]; simp
      exact (List.mem_filter.mp this).2
    by_cases hany : hasClass d [h] = true
    · have hin : d ∈ h.classes := by
        simpa [hasClass, hasClassOne_direction d hdir] using hany
      rcases hmark with hno | hind
      · exact absurd hin hno
      · simp [rerenderOne, hm, hany, hind]
    · have hany2 : hasClass d [h] = false := by simpa using hany
      simp [rerenderOne, hm, hany2, refreshHeader, hnone]
  have hfilter : ((tryBlock (valText column) (writeInputs (valText column) column dom)).1.headers).filter
      carriesIndicator = [rerenderOne (valText column) d (hasClass d [h]) h] := by
    rw [hheaders]
    apply filter_map_single (matchesColumn (valText column)) carriesIndicator _ dom.headers h
      hone
    · intro x hx
      simp [rerenderOne, hx, stripHeader, carriesIndicator]
    · simp [carriesIndicator, hfh]
  refine ⟨trivial, ?_, hnone⟩
  unfold indicatorsMatch
  rw [hfilter, hglyph]
  simp [hfh]

/-- C2 (amended) at a concrete document: one header carries "price", it has
the glyph of its class, and `handleSort("price")` from ("price", "asc") leaves
the one glyph `↓`, on the header of "price". -/
theorem sort_toggle_single_indicator_witness :
    selectorSafe "price" = true ∧
    ([⟨some "price", ["sortable", "asc"], ["↑"]⟩, ⟨some "name", ["sortable"], []⟩] :
        List Header).filter (matchesColumn "price")
      = [⟨some "price", ["sortable", "asc"], ["↑"]⟩] ∧
    ∃ out, handleSort (JsValue.string "price") ⟨"price", "asc",
        [⟨some "price", ["sortable", "asc"], ["↑"]⟩, ⟨some "name", ["sortable"], []⟩]⟩ =
          some out ∧
      out.dom.sort_direction = "desc" ∧
      indicatorsMatch out.dom.sort_direction out.dom.headers = true :=
  ⟨by decide, by decide,
    (sort_toggle_single_indicator (JsValue.string "price") ⟨"price", "asc",
        [⟨some "price", ["sortable", "asc"], ["↑"]⟩, ⟨some "name", ["sortable"], []⟩]⟩
      ⟨some "price", ["sortable", "asc"], ["↑"]⟩ (by decide) (by decide) (by decide)).elim
      (fun out hout => ⟨out, hout.1, hout.2.1, hout.2.2.1⟩)⟩

theorem stripHeader_stripHeader (h : Header) : stripHeader (stripHeader h) = stripHeader h := by
  simp [stripHeader, removeClass_asc_desc, List.filter_filter]

theorem removalRecords_eq_nil (set : List Header) (hclean : ∀ h ∈ set, h.indicators = []) :
    removalRecords set = [] := by
  induction set with
  | nil => rfl
  | cons x t ih =>
    have hx : x.indicators = [] := hclean x (List.mem_cons_self x t)
    have ht : removalRecords t = [] := ih (fun h hh => hclean h (List.mem_cons_of_mem x hh))
    simp only [removalRecords, List.map_cons, List.flatten_cons, hx, List.nil_append] at ht ⊢
    exact ht

theorem map_eq_self (f : Header → Header) (hs : List Header) (hf : ∀ h ∈ hs, f h = h) :
    hs.map f = hs := by
  induction hs with
  | nil => rfl
  | cons x t ih =>
    rw [List.map_cons, hf x (List.mem_cons_self x t),
      ih (fun h hh => hf h (List.mem_cons_of_mem x hh))]

/-- A document on which the `try` block has nothing to do: the headers of other
columns are stripped already, and the current set is empty or passes the
guard. -/
theorem tryBlock_fixed (value : String) (dom : Dom)
    (hothers : ∀ h ∈ dom.headers, matchesColumn value h = false → stripHeader h = h)
    (hcurrent : dom.headers.filter (matchesColumn value) = [] ∨
      hasClass dom.sort_direction (dom.headers.filter (matchesColumn value)) = true) :
    tryBlock value dom = (dom, []) := by
  have hstripped : dom.headers.map
      (fun h => if matchesColumn value h then h else stripHeader h) = dom.headers := by
    apply map_eq_self
    intro h hh
    by_cases hm : matchesColumn value h = true
    · simp [hm]
    · have hm2 : matchesColumn value h = false := by simpa using hm
      simp [hm2, hothers h hh hm2]
  have hrecords : removalRecords
      (dom.headers.filter (fun h => !(matchesColumn value h))) = [] := by
    apply removalRecords_eq_nil
    intro h hh
    have hmem := List.mem_filter.mp hh
    have hm2 : matchesColumn value h = false := by simpa using hmem.2
    have hfix := hothers h hmem.1 hm2
    have : (stripHeader h).indicators = [] := rfl
    rw [hfix] at this
    exact this
  unfold tryBlock
  simp only [hstripped, hrecords, List.nil_append]
  rcases hcurrent with hempty | hany
  · have hno : ∀ h ∈ dom.headers, matchesColumn value h = false := by
      intro h hh
      by_contra hcon
      have hm : matchesColumn value h = true := by simpa using hcon
      have : h ∈ dom.headers.filter (matchesColumn value) :=
        List.mem_filter.mpr ⟨hh, hm⟩
      rw [hempty] at this
      exact absurd this (List.not_mem_nil h)
    have hmap : dom.headers.map
        (fun h => if matchesColumn value h
          then refreshHeader dom.sort_direction h else h) = dom.headers := by
      apply map_eq_self
      intro h hh
      simp [hno h hh]
    simp [hempty, hasClass, hmap, removalRecords, appendRecords]
  · simp [hany]

theorem tryBlock_idempotent (value : String) (dom : Dom)
    (hdir : dom.sort_direction ∈ sortDirections) :
    tryBlock value (tryBlock value dom).1 = ((tryBlock value dom).1, []) := by
  apply tryBlock_fixed
  · rw [tryBlock_headers]
    intro h1 hh1 hm1
    obtain ⟨h, hh, rfl⟩ := List.mem_map.mp hh1
    rw [matchesColumn_rerenderOne] at hm1
    simp only [rerenderOne, hm1, Bool.false_eq_true, if_false]
    exact stripHeader_stripHeader h
  · rw [tryBlock_sort_direction, tryBlock_headers]
    by_cases hany : hasClass dom.sort_direction
        (dom.headers.filter (matchesColumn value)) = true
    · right
      have hsame : (dom.headers.map (rerenderOne value dom.sort_direction true)).filter
          (matchesColumn value) = dom.headers.filter (matchesColumn value) := by
        rw [List.filter_map]
        have hcomp : (matchesColumn value ∘ rerenderOne value dom.sort_direction true) =
            matchesColumn value := by
          funext h
          exact matchesColumn_rerenderOne _ _ _ h
        rw [hcomp]
        apply map_eq_self
        intro h hh
        simp [rerenderOne, (List.mem_filter.mp hh).2]
      rw [hany, hsame]
      exact hany
    · have hany2 : hasClass dom.sort_direction
          (dom.headers.filter (matchesColumn value)) = false := by simpa using hany
      rw [hany2, List.filter_map]
      have hcomp : (matchesColumn value ∘ rerenderOne value dom.sort_direction false) =
          matchesColumn value := by
        funext h
        exact matchesColumn_rerenderOne _ _ _ h
      rw [hcomp]
      match hf : dom.headers.filter (matchesColumn value) with
      | [] => left; rfl
      | x :: rest =>
        right
        have hx : matchesColumn value x = true := by
          have : x ∈ dom.headers.filter (matchesColumn value) := by rw [hf]; simp
          exact (List.mem_filter.mp this).2
        have hcls := mem_classes_refreshHeader dom.sort_direction hdir x
        simp only [hasClass, List.map_cons, List.any_cons, rerenderOne, hx, if_true,
          Bool.false_eq_true, if_false, hasClassOne_direction dom.sort_direction hdir]
        simp [hcls]

theorem observer_fixed (dom : Dom) (hfix : updateSortIndicators dom = some (dom, []))
    (mutations : List MutationRecord) : observer mutations dom = some (dom, []) := by
  unfold observer
  induction mutations with
  | nil => rfl
  | cons m t ih =>
    rw [List.foldl_cons]
    simp only [Option.some_bind, hfix, Option.map_some', List.append_nil, ite_self]
    exact ih

/-- C9 (what the code does): for a direction among `asc`, `desc`, `none` a
second `updateSortIndicators()` changes nothing and queues no mutation record,
and the observer callback, run on any records, leaves the document as it is
and queues none: the loop settles.  With `#sort_direction` empty it does not:
`hasClass("")` is false and `addClass("")` adds nothing, so every call removes
the span and appends a new one, and the observer callback run on the records
of a call queues the same records again. -/
theorem updateSortIndicators_idempotent :
    (∀ (dom : Dom) (r : Dom × List MutationRecord),
      dom.sort_direction ∈ sortDirections → updateSortIndicators dom = some r →
        updateSortIndicators r.1 = some (r.1, []) ∧
        observer r.2 r.1 = some (r.1, []) ∧
        ∀ mutations : List MutationRecord, observer mutations r.1 = some (r.1, [])) ∧
    updateSortIndicators ⟨"price", "", [⟨some "price", ["sortable"], []⟩]⟩ =
      some (⟨"price", "", [⟨some "price", ["sortable"], ["↓"]⟩]⟩, [⟨1, 0⟩]) ∧
    updateSortIndicators ⟨"price", "", [⟨some "price", ["sortable"], ["↓"]⟩]⟩ =
      some (⟨"price", "", [⟨some "price", ["sortable"], ["↓"]⟩]⟩, [⟨0, 1⟩, ⟨1, 0⟩]) ∧
    observer [⟨1, 0⟩] ⟨"price", "", [⟨some "price", ["sortable"], ["↓"]⟩]⟩ =
      some (⟨"price", "", [⟨some "price", ["sortable"], ["↓"]⟩]⟩, [⟨0, 1⟩, ⟨1, 0⟩]) ∧
    observer [⟨0, 1⟩, ⟨1, 0⟩] ⟨"price", "", [⟨some "price", ["sortable"], ["↓"]⟩]⟩ =
      some (⟨"price", "", [⟨some "price", ["sortable"], ["↓"]⟩]⟩, [⟨0, 1⟩, ⟨1, 0⟩]) := by
  refine ⟨?_, by decide, by decide, by decide, by decide⟩
  intro dom r hdir hr
  have hfix : updateSortIndicators r.1 = some (r.1, []) := by
    unfold updateSortIndicators at hr
    split at hr
    · exact absurd hr (by simp)
    · rename_i hsel
      simp only [Option.some.injEq] at hr
      rw [← hr]
      simp only [updateSortIndicators, hsel]
    · rename_i value hsel
      simp only [Option.some.injEq] at hr
      rw [← hr]
      have hcol := tryBlock_sort_column value dom
      simp only [updateSortIndicators, hcol, hsel]
      rw [tryBlock_idempotent value dom hdir]
  exact ⟨hfix, observer_fixed _ hfix _, fun mutations => observer_fixed _ hfix mutations⟩

/-! ## Theorems: loading overlay -/

/-- C5: the `toggleLoading` handler sets the display of `#table-loading` to
`flex` for `true` and to `none` for `false`, so `toggleLoading(true)` followed
by `toggleLoading(false)` leaves `flex` and then `none`; the result depends on
the last `show` value only; without the element the handler changes nothing. -/
theorem toggleLoading_display :
    (∀ display : String,
      toggleLoading true (some display) = some "flex" ∧
      toggleLoading false (some display) = some "none" ∧
      toggleLoading false (toggleLoading true (some display)) = some "none") ∧
    (∀ (first last : Bool) (loadingEl : Option String),
      toggleLoading last (toggleLoading first loadingEl) = toggleLoading last loadingEl) ∧
    (∀ (shows : List Bool) (last : Bool) (display : String),
      toggleLoading last (shows.foldl (fun el b => toggleLoading b el) (some display)) =
        some (if last then "flex" else "none")) ∧
    (∀ b : Bool, toggleLoading b none = none) := by
  refine ⟨fun display => ⟨rfl, rfl, rfl⟩, ?_, ?_, fun b => rfl⟩
  · intro first last loadingEl
    cases loadingEl <;> rfl
  · intro shows
    induction shows with
    | nil => intro last display; rfl
    | cons b t ih =>
      intro last display
      rw [List.foldl_cons]
      exact ih last _

/-! ## Theorems: event relay -/

/-- C7: with the bridge present, `handleMapClick`, `handleZoomEnd` and
`handleRowClick` each send exactly one message: `map_click` with the object of
`e.latlng.lat` and `e.latlng.lng`, `map_zoom` with what `e.target.getZoom()`
returned, `selected_property` with `propertyId`; with the bridge absent each
sends nothing and raises no error, whatever its argument. -/
theorem relay_handlers_send_once {α : Type} :
    (∀ p : LatLng α,
      handleMapClick true ⟨some p⟩ = Except.ok [("map_click", Payload.latLng p.lat p.lng)]) ∧
    (∀ zoom : α,
      handleZoomEnd true ⟨some zoom⟩ = Except.ok [("map_zoom", Payload.value zoom)]) ∧
    (∀ propertyId : α,
      handleRowClick true propertyId =
        Except.ok [("selected_property", Payload.value propertyId)]) ∧
    (∀ e : MapClick α, handleMapClick false e = Except.ok []) ∧
    (∀ e : ZoomEnd α, handleZoomEnd false e = Except.ok []) ∧
    (∀ propertyId : α, handleRowClick false propertyId = Except.ok []) :=
  ⟨fun _ => rfl, fun _ => rfl, fun _ => rfl, fun _ => rfl, fun _ => rfl, fun _ => rfl⟩

/-! ## Theorems: cache worker -/

theorem fetchAll_isSome (origin : String) (net : Network) (urls : List String) :
    (fetchAll origin net urls).isSome = true ↔
      ∀ url ∈ urls, ∃ r, net (Request.get origin url) = some r ∧ r.addable = true := by
  induction urls with
  | nil => simp [fetchAll]
  | cons u t ih =>
    simp only [fetchAll, List.mem_cons, forall_eq_or_imp]
    cases hnet : net (Request.get origin u) with
    | none => simp
    | some r =>
      by_cases hok : r.addable = true
      · simp only [hok, if_true, Option.some.injEq, exists_eq_left', true_and]
        rw [← ih]
        cases fetchAll origin net t <;> simp
      · simp [hok]

theorem vary_all_of_addable (r : Response) (hr : r.addable = true) :
    r.vary.all (fun field => field != "*") = true := by
  simp only [Response.addable, Bool.and_eq_true, Bool.not_eq_true'] at hr
  rw [List.all_eq_true]
  intro f hf
  simp only [bne_iff_ne, ne_eq]
  intro heq
  have hin : r.vary.contains "*" = true := by
    rw [← heq]; simpa using hf
  rw [hr.2] at hin
  exact Bool.noConfusion hin

theorem requestMatches_get (origin p q : String) (r : Response) :
    requestMatches (Request.get origin p) (Request.get origin q, r) =
      (p == q && r.vary.all (fun field => field != "*")) := by
  simp [requestMatches, Request.get, headerValues]

theorem requestMatches_get_same (origin p : String) (r : Response) (hr : r.addable = true) :
    requestMatches (Request.get origin p) (Request.get origin p, r) = true := by
  rw [requestMatches_get, vary_all_of_addable r hr]
  simp

theorem requestMatches_get_other (origin p q : String) (r : Response) (hpq : p ≠ q) :
    requestMatches (Request.get origin p) (Request.get origin q, r) = false := by
  rw [requestMatches_get]
  simp [hpq]

theorem addAll_assets (origin : String) (net : Network) (quota : Bool) (cache cache1 : Cache)
    (hshape : cache = [] ∨ holdsAssets origin cache)
    (hadd : Cache.addAll origin net quota assets cache = some cache1) :
    quota = true ∧
    ∃ a b c : Response,
      net (Request.get origin "/") = some a ∧
      net (Request.get origin "/service.js") = some b ∧
      net (Request.get origin "/styles.css") = some c ∧
      a.addable = true ∧ b.addable = true ∧ c.addable = true ∧
      cache1 = [(Request.get origin "/", a), (Request.get origin "/service.js", b),
        (Request.get origin "/styles.css", c)] := by
  simp only [Cache.addAll, assets, fetchAll] at hadd
  cases h1 : net (Request.get origin "/") with
  | none => simp [h1] at hadd
  | some a =>
    cases h2 : net (Request.get origin "/service.js") with
    | none =>
      simp only [h1, h2] at hadd
      split at hadd <;> simp at hadd
    | some b =>
      cases h3 : net (Request.get origin "/styles.css") with
      | none =>
        simp only [h1, h2, h3] at hadd
        split at hadd
        · split at hadd <;> simp at hadd
        · simp at hadd
      | some c =>
        simp only [h1, h2, h3] at hadd
        by_cases ha : a.addable = true
        · by_cases hb : b.addable = true
          · by_cases hc : c.addable = true
            · cases quota with
              | false => simp [ha, hb, hc] at hadd
              | true =>
                refine ⟨rfl, a, b, c, rfl, rfl, rfl, ha, hb, hc, ?_⟩
                simp only [ha, hb, hc, if_true, Option.map_some', Option.some_bind,
                  Option.some.injEq, List.foldl_cons, List.foldl_nil] at hadd
                rw [← hadd]
                rcases hshape with rfl | ⟨x, y, z, rfl, hx, hy, hz⟩
                · simp [Cache.put, requestMatches_get_other]
                · simp [Cache.put, requestMatches_get_other, requestMatches_get_same, hx, hy,
                    hz, ha, hb, hc]
            · simp [ha, hb, hc] at hadd
          · simp [ha, hb] at hadd
        · simp [ha] at hadd

theorem cachesOpen_shape (origin : String) (storage : CacheStorage)
    (hshape : storageShape origin storage) :
    ∃ cache : Cache, (cache = [] ∨ holdsAssets origin cache) ∧
      cachesOpen cacheName storage = ([(cacheName, cache)], cache) ∧
      workerCache storage = cache := by
  rcases hshape with rfl | ⟨cache, rfl, hc⟩
  · exact ⟨[], Or.inl rfl, rfl, rfl⟩
  · refine ⟨cache, hc, ?_, ?_⟩
    · simp [cachesOpen]
    · simp [workerCache]

theorem onInstall_cases (origin : String) (net : Network) (quota : Bool)
    (storage : CacheStorage) (hshape : storageShape origin storage) :
    ((onInstall origin net quota storage).2 = true ∧ quota = true ∧
      ∃ a b c : Response,
        net (Request.get origin "/") = some a ∧
        net (Request.get origin "/service.js") = some b ∧
        net (Request.get origin "/styles.css") = some c ∧
        a.addable = true ∧ b.addable = true ∧ c.addable = true ∧
        (onInstall origin net quota storage).1 = [(cacheName,
          [(Request.get origin "/", a), (Request.get origin "/service.js", b),
            (Request.get origin "/styles.css", c)])]) ∨
    ((onInstall origin net quota storage).2 = false ∧
      (quota = false ∨ fetchAll origin net assets = none) ∧
      (onInstall origin net quota storage).1 = [(cacheName, workerCache storage)]) := by
  obtain ⟨cache, hc, hopen, hwc⟩ := cachesOpen_shape origin storage hshape
  unfold onInstall
  simp only [hopen, hwc]
  cases hadd : Cache.addAll origin net quota assets cache with
  | none =>
    right
    refine ⟨rfl, ?_, rfl⟩
    simp only [Cache.addAll] at hadd
    cases hf : fetchAll origin net assets with
    | none => right; rfl
    | some fetched =>
      left
      rw [hf] at hadd
      cases quota with
      | false => rfl
      | true => simp at hadd
  | some cache1 =>
    left
    obtain ⟨hq, a, b, c, ha, hb, hcc, hxa, hxb, hxc, rfl⟩ :=
      addAll_assets origin net quota cache cache1 hc hadd
    refine ⟨rfl, hq, a, b, c, ha, hb, hcc, hxa, hxb, hxc, ?_⟩
    simp [cachesStore]

theorem onInstall_shape (origin : String) (net : Network) (quota : Bool)
    (storage : CacheStorage) (hshape : storageShape origin storage) :
    storageShape origin (onInstall origin net quota storage).1 := by
  rcases onInstall_cases origin net quota storage hshape with
    ⟨_, _, a, b, c, _, _, _, ha, hb, hc, hst⟩ | ⟨_, _, hst⟩
  · rw [hst]
    exact Or.inr ⟨_, rfl, Or.inr ⟨a, b, c, rfl, ha, hb, hc⟩⟩
  · rw [hst]
    obtain ⟨cache, hc, _, hwc⟩ := cachesOpen_shape origin storage hshape
    exact Or.inr ⟨_, rfl, hwc ▸ hc⟩

theorem onFetch_storage (net : Network) (storage : CacheStorage) (request : Request) :
    (onFetch net storage request).storage = storage := by
  unfold onFetch
  split <;> rfl

theorem foldl_workerStep_shape (origin : String) (events : List WorkerEvent)
    (storage : CacheStorage) (hshape : storageShape origin storage) :
    storageShape origin (events.foldl (workerStep origin) storage) := by
  induction events generalizing storage with
  | nil => exact hshape
  | cons e t ih =>
    rw [List.foldl_cons]
    apply ih
    cases e with
    | install net quota => exact onInstall_shape origin net quota storage hshape
    | fetch net request =>
      simp only [workerStep, onFetch_storage]
      exact hshape

theorem runWorker_shape (origin : String) (events : List WorkerEvent) :
    storageShape origin (runWorker origin events) :=
  foldl_workerStep_shape origin events [] (Or.inl rfl)

theorem lookup_asset (origin : String) (a b c : Response) (request : Request) (url : String)
    (r : Response)
    (hentry : (url, r) ∈ [("/", a), ("/service.js", b), ("/styles.css", c)])
    (hr : r.addable = true)
    (hmethod : request.method = "GET") (horigin : request.url.origin = origin)
    (hpath : request.url.path = url)
    (hvary : ∀ field ∈ r.vary, headerValues field request.headers = []) :
    Cache.lookup [(Request.get origin "/", a), (Request.get origin "/service.js", b),
      (Request.get origin "/styles.css", c)] request = some r := by
  have hall : r.vary.all (fun field =>
      field != "*" && headerValues field request.headers == headerValues field []) = true := by
    rw [List.all_eq_true]
    intro f hf
    have h1 := List.all_eq_true.mp (vary_all_of_addable r hr) f hf
    have h2 := hvary f hf
    simp only [Bool.and_eq_true, beq_iff_eq]
    exact ⟨h1, by rw [h2]; rfl⟩
  simp only [List.mem_cons, Prod.mk.injEq, List.mem_singleton, List.not_mem_nil, or_false]
    at hentry
  rcases hentry with ⟨rfl, rfl⟩ | ⟨rfl, rfl⟩ | ⟨rfl, rfl⟩
  · simp [Cache.lookup, List.find?, requestMatches, Request.get, hmethod, horigin, hpath, hall]
  · simp [Cache.lookup, List.find?, requestMatches, Request.get, hmethod, horigin, hpath, hall]
  · simp [Cache.lookup, List.find?, requestMatches, Request.get, hmethod, horigin, hpath, hall]

theorem lookup_other (origin : String) (a b c : Response) (request : Request)
    (hother : request.method ≠ "GET" ∨ request.url.origin ≠ origin ∨
      request.url.path ∉ assets) :
    Cache.lookup [(Request.get origin "/", a), (Request.get origin "/service.js", b),
      (Request.get origin "/styles.css", c)] request = none := by
  have hmiss : ∀ (p : String) (r : Response), p ∈ assets →
      requestMatches request (Request.get origin p, r) = false := by
    intro p r hp
    rcases hother with h | h | h
    · simp [requestMatches, h]
    · simp [requestMatches, Request.get, h]
    · have hne : request.url.path ≠ p := fun heq => h (heq ▸ hp)
      simp [requestMatches, Request.get, hne]
  simp [Cache.lookup, List.find?, hmiss "/" a (by decide), hmiss "/service.js" b (by decide),
    hmiss "/styles.css" c (by decide)]

/-- C6: in every history of the worker on an origin whose cache storage started
empty, an install succeeds exactly when each of `/`, `/service.js` and
`/styles.css` is fetched with a response `addAll` takes and the storage has
room; after a successful install the cache `amazon-reviews-v1` (the only cache
there is) holds exactly these three requests, each with the response the
network gave, and a failed install leaves the cache as it was.  The `fetch`
listener answers with the cached response when there is a match, without a
request to the network, and otherwise with the result of the network fetch of
that same request; it never changes the storage.  So after a successful
install a `GET` of one of the three URLs (whatever its fragment, with no
header the stored response varies on) is answered from the cache whatever the
network, and a request of another method, origin or path goes to the
network. -/
theorem cache_worker_contract :
    (∀ (origin : String) (events : List WorkerEvent) (net : Network) (quota : Bool),
      ((installed origin events net quota).2 = true ↔
        (quota = true ∧
          ∀ url ∈ assets, ∃ r, net (Request.get origin url) = some r ∧ r.addable = true)) ∧
      ((installed origin events net quota).2 = true →
        (installed origin events net quota).1.map Prod.fst = [cacheName] ∧
        (workerCache (installed origin events net quota).1).map Prod.fst =
          assets.map (Request.get origin) ∧
        (∀ (url : String) (r : Response), url ∈ assets →
          net (Request.get origin url) = some r →
          (Request.get origin url, r) ∈ workerCache (installed origin events net quota).1 ∧
          ∀ (later : Network) (request : Request),
            request.method = "GET" → request.url.origin = origin →
            request.url.path = url →
            (∀ field ∈ r.vary, headerValues field request.headers = []) →
            onFetch later (installed origin events net quota).1 request =
              { storage := (installed origin events net quota).1,
                response := some r, network := [] }) ∧
        (∀ (later : Network) (request : Request),
          (request.method ≠ "GET" ∨ request.url.origin ≠ origin ∨
            request.url.path ∉ assets) →
          onFetch later (installed origin events net quota).1 request =
            { storage := (installed origin events net quota).1,
              response := later request, network := [request] })) ∧
      ((installed origin events net quota).2 = false →
        workerCache (installed origin events net quota).1 =
          workerCache (runWorker origin events))) ∧
    (∀ (net : Network) (storage : CacheStorage) (request : Request) (response : Response),
      cachesMatch storage request = some response →
        (onFetch net storage request).response = some response ∧
        (onFetch net storage request).network = []) ∧
    (∀ (net : Network) (storage : CacheStorage) (request : Request),
      cachesMatch storage request = none →
        (onFetch net storage request).response = net request ∧
        (onFetch net storage request).network = [request]) ∧
    (∀ (net : Network) (storage : CacheStorage) (request : Request),
      (onFetch net storage request).storage = storage) := by
  refine ⟨fun origin events net quota => ?_, ?_, ?_, onFetch_storage⟩
  · have hshape := runWorker_shape origin events
    have hcases := onInstall_cases origin net quota (runWorker origin events) hshape
    have hsome := fetchAll_isSome origin net assets
    unfold installed
    refine ⟨?_, ?_, ?_⟩
    · rcases hcases with ⟨hok, hq, a, b, c, ha, hb, hc, hxa, hxb, hxc, _⟩ | ⟨hfail, hwhy, _⟩
      · constructor
        · intro _
          refine ⟨hq, ?_⟩
          intro url hurl
          simp only [assets, List.mem_cons, List.mem_singleton, List.not_mem_nil, or_false]
            at hurl
          rcases hurl with rfl | rfl | rfl
          · exact ⟨a, ha, hxa⟩
          · exact ⟨b, hb, hxb⟩
          · exact ⟨c, hc, hxc⟩
        · intro _; exact hok
      · constructor
        · intro h; rw [hfail] at h; exact absurd h (by simp)
        · intro hall
          rcases hwhy with hq | hnone
          · rw [hq] at hall; exact absurd hall.1 (by simp)
          · have := hsome.mpr hall.2
            rw [hnone] at this
            exact absurd this (by simp)
    · intro hok
      rcases hcases with ⟨_, _, a, b, c, ha, hb, hc, hxa, hxb, hxc, hst⟩ | ⟨hfail, _, _⟩
      · rw [hst]
        have hwc : workerCache [(cacheName,
            [(Request.get origin "/", a), (Request.get origin "/service.js", b),
              (Request.get origin "/styles.css", c)])] =
            [(Request.get origin "/", a), (Request.get origin "/service.js", b),
              (Request.get origin "/styles.css", c)] := by
          simp [workerCache]
        refine ⟨rfl, ?_, ?_, ?_⟩
        · rw [hwc]; simp [assets]
        · intro url r hurl hnet
          have hentry : (url, r) ∈ [("/", a), ("/service.js", b), ("/styles.css", c)] ∧
              r.addable = true := by
            simp only [assets, List.mem_cons, List.mem_singleton, List.not_mem_nil, or_false]
              at hurl
            rcases hurl with rfl | rfl | rfl
            · rw [ha] at hnet
              simp only [Option.some.injEq] at hnet
              subst hnet
              exact ⟨by simp, hxa⟩
            · rw [hb] at hnet
              simp only [Option.some.injEq] at hnet
              subst hnet
              exact ⟨by simp, hxb⟩
            · rw [hc] at hnet
              simp only [Option.some.injEq] at hnet
              subst hnet
              exact ⟨by simp, hxc⟩
          constructor
          · rw [hwc]
            have hmap := List.mem_map_of_mem
              (fun e : String × Response => (Request.get origin e.1, e.2)) hentry.1
            simpa using hmap
          · intro later request hmethod horigin hpath hvary
            have hlook := lookup_asset origin a b c request url r hentry.1 hentry.2
              hmethod horigin hpath hvary
            simp [onFetch, cachesMatch, hlook]
        · intro later request hother
          have hlook := lookup_other origin a b c request hother
          simp [onFetch, cachesMatch, hlook]
      · rw [hfail] at hok; exact absurd hok (by simp)
    · intro hfail
      rcases hcases with ⟨hok, _⟩ | ⟨_, _, hst⟩
      · rw [hok] at hfail; exact absurd hfail (by simp)
      · rw [hst]; simp [workerCache]
  · intro net storage request response hmatch
    simp [onFetch, hmatch]
  · intro net storage request hmatch
    simp [onFetch, hmatch]

/-! ## Theorems: search debouncer -/

theorem keystroke_initial (t : Nat) (v : String) :
    keystroke Debouncer.initial (t, v) = armed 0 t v [(t, Message.loading true)] := by
  rfl

theorem keystroke_armed (h t t1 : Nat) (v v1 : String) (sent : List (Nat × Message))
    (hlt : t1 < t + 300) :
    keystroke (armed h t v sent) (t1, v1) =
      armed (h + 1) t1 v1 (sent ++ [(t1, Message.loading true)]) := by
  have hnot : ¬ (t + 300 ≤ t1) := by omega
  simp [keystroke, settle, armed, runTimers, earliest, onInput, clearTimeout, setInputValue,
    setTimeout, hnot]

theorem settle_armed (h t : Nat) (v : String) (sent : List (Nat × Message)) :
    settle none (armed h t v sent) = quiet h t v sent := by
  simp [settle, armed, quiet, runTimers, earliest, fire, setInputValue, setTimeout]

theorem settle_armed_until (h t stop : Nat) (v : String) (sent : List (Nat × Message))
    (hstop : t + 600 ≤ stop) :
    settle (some stop) (armed h t v sent) = quiet h t v sent := by
  have h1 : t + 300 ≤ stop := by omega
  have h2 : t + 300 + 300 ≤ stop := by omega
  simp [settle, armed, quiet, runTimers, earliest, fire, setInputValue, setTimeout, h1, h2]

theorem foldl_keystroke_armed (keys : List (Nat × String)) :
    ∀ (h t : Nat) (v : String) (sent : List (Nat × Message)),
      List.Chain (fun a b => a.1 ≤ b.1 ∧ b.1 < a.1 + 300) (t, v) keys →
      keys.foldl keystroke (armed h t v sent) =
        armed (h + keys.length)
          (((t, v) :: keys).getLast (List.cons_ne_nil _ _)).1
          (((t, v) :: keys).getLast (List.cons_ne_nil _ _)).2
          (sent ++ keys.map (fun k => (k.1, Message.loading true))) := by
  induction keys with
  | nil => intro h t v sent _; simp
  | cons k rest ih =>
    intro h t v sent hchain
    obtain ⟨t1, v1⟩ := k
    rw [List.chain_cons] at hchain
    rw [List.foldl_cons, keystroke_armed h t t1 v v1 sent hchain.1.2, ih _ _ _ _ hchain.2]
    simp only [List.getLast_cons_cons, List.length_cons, List.map_cons, List.append_assoc,
      List.singleton_append]
    congr 1
    omega

theorem trace_rapid (keys : List (Nat × String)) (hne : keys ≠ []) (hrapid : rapid keys) :
    run keys =
      quiet (keys.length - 1) (keys.getLast hne).1 (keys.getLast hne).2
        (keys.map (fun k => (k.1, Message.loading true))) := by
  match keys, hne, hrapid with
  | (t, v) :: rest, _, hr =>
    have hchain : List.Chain (fun a b => a.1 ≤ b.1 ∧ b.1 < a.1 + 300) (t, v) rest := hr
    unfold run
    rw [List.foldl_cons, keystroke_initial, foldl_keystroke_armed rest 0 t v _ hchain,
      settle_armed]
    simp

/-- C3: for every non-empty sequence of keystrokes each less than 300ms after
the one before, exactly one `product_search` message is sent, 300ms after the
last keystroke, with the value the field has then (the value the last
keystroke left); around it the trace holds one `loading = true` per keystroke
and one `loading = false` 600ms after the last keystroke. -/
theorem rapid_keystrokes_send_one_search (keys : List (Nat × String)) (hne : keys ≠ [])
    (hrapid : rapid keys) :
    (trace keys).filter isProductSearch =
      [((keys.getLast hne).1 + 300, Message.product_search (keys.getLast hne).2)] ∧
    (run keys).value = (keys.getLast hne).2 ∧
    trace keys = keys.map (fun k => (k.1, Message.loading true)) ++
      [((keys.getLast hne).1 + 300, Message.product_search (keys.getLast hne).2),
       ((keys.getLast hne).1 + 600, Message.loading false)] := by
  have hrun := trace_rapid keys hne hrapid
  refine ⟨?_, ?_, ?_⟩
  · simp only [trace, hrun, quiet, List.filter_append]
    have hnone : (keys.map (fun k => (k.1, Message.loading true))).filter isProductSearch = [] := by
      rw [List.filter_eq_nil_iff]
      intro m hm
      obtain ⟨k, _, rfl⟩ := List.mem_map.mp hm
      simp [isProductSearch]
    rw [hnone]
    simp [isProductSearch]
  · rw [hrun]; rfl
  · simp only [trace, hrun, quiet]

/-- C3 at three keystrokes 0ms, 100ms and 399ms: one search, at 699ms, with the
value typed last. -/
theorem rapid_keystrokes_send_one_search_witness :
    rapid [(0, "a"), (100, "ab"), (399, "abc")] ∧
    (trace [(0, "a"), (100, "ab"), (399, "abc")]).filter isProductSearch =
      [(699, Message.product_search "abc")] :=
  ⟨by simp [rapid],
    (rapid_keystrokes_send_one_search [(0, "a"), (100, "ab"), (399, "abc")]
      (by decide) (by simp [rapid])).1⟩

theorem onInput_eq (now : Nat) (v : String) (s : Debouncer) :
    onInput now v s =
      { value := v, searchTimeout := some s.nextHandle, nextHandle := s.nextHandle + 1,
        timers := s.timers.filter (fun t => some t.handle != s.searchTimeout) ++
          [⟨s.nextHandle, now + 300, Callback.search⟩],
        sent := s.sent ++ [(now, Message.loading true)] } := rfl

theorem fire_search (x : Timer) (s : Debouncer) (hx : x.callback = Callback.search) :
    fire x s =
      { value := s.value, searchTimeout := s.searchTimeout, nextHandle := s.nextHandle + 1,
        timers := s.timers ++ [⟨s.nextHandle, x.due + 300, Callback.clearLoading⟩],
        sent := s.sent ++ [(x.due, Message.product_search s.value)] } := by
  simp [fire, hx, setInputValue, setTimeout]

theorem fire_clearLoading (x : Timer) (s : Debouncer)
    (hx : x.callback = Callback.clearLoading) :
    fire x s = { s with sent := s.sent ++ [(x.due, Message.loading false)] } := by
  simp [fire, hx, setInputValue]

theorem earliest_mem (ts : List Timer) (x : Timer) (hx : earliest ts = some x) : x ∈ ts := by
  induction ts generalizing x with
  | nil => simp [earliest] at hx
  | cons t rest ih =>
    simp only [earliest] at hx
    cases hrest : earliest rest with
    | none =>
      rw [hrest] at hx
      simp only [Option.some.injEq] at hx
      rw [← hx]; exact List.mem_cons_self _ _
    | some u =>
      rw [hrest] at hx
      simp only at hx
      split at hx
      · simp only [Option.some.injEq] at hx
        rw [← hx]
        exact List.mem_cons_of_mem _ (ih u hrest)
      · simp only [Option.some.injEq] at hx
        rw [← hx]; exact List.mem_cons_self _ _

theorem earliest_eq_none (ts : List Timer) (hnone : earliest ts = none) : ts = [] := by
  cases ts with
  | nil => rfl
  | cons t rest =>
    simp only [earliest] at hnone
    cases hrest : earliest rest with
    | none => rw [hrest] at hnone; simp at hnone
    | some u =>
      rw [hrest] at hnone
      simp only at hnone
      split at hnone <;> simp at hnone

theorem runTimers_grows (start : Nat) (fuel : Nat) :
    ∀ (limit : Option Nat) (s : Debouncer), notBefore start s →
      notBefore start (runTimers fuel limit s) ∧
      ∃ later, (runTimers fuel limit s).sent = s.sent ++ later ∧ ∀ m ∈ later, start ≤ m.1 := by
  induction fuel with
  | zero => intro limit s hs; exact ⟨hs, [], by simp [runTimers], by simp⟩
  | succ n ih =>
    intro limit s hs
    simp only [runTimers]
    cases hx : earliest s.timers with
    | none => exact ⟨hs, [], by simp, by simp⟩
    | some x =>
      simp only
      have hxmem := earliest_mem _ _ hx
      have hxdue := hs x hxmem
      split
      · have hnext : notBefore start (fire x { s with timers := s.timers.erase x }) := by
          cases hcb : x.callback with
          | search =>
            rw [fire_search _ _ hcb]
            intro y hy
            rcases List.mem_append.mp hy with h1 | h1
            · exact hs y (List.mem_of_mem_erase h1)
            · simp only [List.mem_singleton] at h1
              rw [h1]; simp only; omega
          | clearLoading =>
            rw [fire_clearLoading _ _ hcb]
            intro y hy
            exact hs y (List.mem_of_mem_erase hy)
        obtain ⟨hnb, later, hsent, hlater⟩ := ih limit _ hnext
        refine ⟨hnb, ?_⟩
        cases hcb : x.callback with
        | search =>
          rw [fire_search _ _ hcb] at hsent ⊢
          refine ⟨(x.due, Message.product_search s.value) :: later, ?_, ?_⟩
          · rw [hsent]; simp
          · intro m hm
            rcases List.mem_cons.mp hm with h1 | h1
            · rw [h1]; exact hxdue
            · exact hlater m h1
        | clearLoading =>
          rw [fire_clearLoading _ _ hcb] at hsent ⊢
          refine ⟨(x.due, Message.loading false) :: later, ?_, ?_⟩
          · rw [hsent]; simp
          · intro m hm
            rcases List.mem_cons.mp hm with h1 | h1
            · rw [h1]; exact hxdue
            · exact hlater m h1
      · exact ⟨hs, [], by simp, by simp⟩

theorem keystroke_grows (start : Nat) (s : Debouncer) (k : Nat × String)
    (hs : notBefore start s) (hk : start ≤ k.1) :
    notBefore start (keystroke s k) ∧
    ∃ later, (keystroke s k).sent = s.sent ++ later ∧ ∀ m ∈ later, start ≤ m.1 := by
  obtain ⟨hnb, later, hsent, hlater⟩ := runTimers_grows start (2 * s.timers.length) (some k.1) s hs
  simp only [keystroke, settle, onInput_eq]
  constructor
  · intro y hy
    rcases List.mem_append.mp hy with h1 | h1
    · exact hnb y (List.mem_filter.mp h1).1
    · simp only [List.mem_singleton] at h1
      rw [h1]; simp only; omega
  · refine ⟨later ++ [(k.1, Message.loading true)], ?_, ?_⟩
    · simp only [hsent, List.append_assoc]
    · intro m hm
      rcases List.mem_append.mp hm with h1 | h1
      · exact hlater m h1
      · simp only [List.mem_singleton] at h1
        rw [h1]; exact hk

theorem foldl_keystroke_grows (start : Nat) (keys : List (Nat × String)) :
    ∀ s : Debouncer, notBefore start s → (∀ k ∈ keys, start ≤ k.1) →
      notBefore start (keys.foldl keystroke s) ∧
      ∃ later, (keys.foldl keystroke s).sent = s.sent ++ later ∧ ∀ m ∈ later, start ≤ m.1 := by
  induction keys with
  | nil => intro s hs _; exact ⟨hs, [], by simp, by simp⟩
  | cons k rest ih =>
    intro s hs hkeys
    obtain ⟨hnb1, later1, hsent1, hlater1⟩ :=
      keystroke_grows start s k hs (hkeys k (List.mem_cons_self _ _))
    obtain ⟨hnb2, later2, hsent2, hlater2⟩ :=
      ih (keystroke s k) hnb1 (fun k2 hk2 => hkeys k2 (List.mem_cons_of_mem _ hk2))
    rw [List.foldl_cons]
    refine ⟨hnb2, later1 ++ later2, ?_, ?_⟩
    · rw [hsent2, hsent1, List.append_assoc]
    · intro m hm
      rcases List.mem_append.mp hm with h1 | h1
      · exact hlater1 m h1
      · exact hlater2 m h1

theorem keystroke_quiet (h t : Nat) (v : String) (sent : List (Nat × Message))
    (k : Nat × String) (hk : t + 600 ≤ k.1) :
    keystroke (armed h t v sent) k = keystroke (quiet h t v sent) k := by
  have hq : settle (some k.1) (quiet h t v sent) = quiet h t v sent := by
    simp [settle, quiet, runTimers]
  simp only [keystroke, settle_armed_until h t k.1 v sent hk, hq]

/-- C4: a single keystroke at time `t` makes the debouncer send exactly
`loading = true` at `t`, `product_search` with the value at `t + 300` and
`loading = false` at `t + 600`, in that order and nothing else; and when
further keystrokes come, none before `t + 600`, these three messages open the
trace and all that follows is sent at `t + 600` or later. -/
theorem single_keystroke_trace :
    (∀ (t : Nat) (v : String),
      trace [(t, v)] =
        [(t, Message.loading true), (t + 300, Message.product_search v),
         (t + 600, Message.loading false)]) ∧
    (∀ (t : Nat) (v : String) (rest : List (Nat × String)),
      (∀ k ∈ rest, t + 600 ≤ k.1) →
      ∃ later, trace ((t, v) :: rest) =
        [(t, Message.loading true), (t + 300, Message.product_search v),
         (t + 600, Message.loading false)] ++ later ∧
        ∀ m ∈ later, t + 600 ≤ m.1) := by
  have hone : ∀ (t : Nat) (v : String),
      trace [(t, v)] =
        [(t, Message.loading true), (t + 300, Message.product_search v),
         (t + 600, Message.loading false)] := by
    intro t v
    simp only [trace, run, List.foldl_cons, List.foldl_nil, keystroke_initial, settle_armed]
    rfl
  refine ⟨hone, ?_⟩
  intro t v rest hrest
  cases rest with
  | nil => exact ⟨[], by rw [hone]; simp, by simp⟩
  | cons k rest1 =>
    have hk : t + 600 ≤ k.1 := hrest k (List.mem_cons_self _ _)
    have hq : notBefore (t + 600) (quiet 0 t v [(t, Message.loading true)]) := by
      intro x hx
      simp [quiet] at hx
    obtain ⟨hnb, later1, hsent1, hlater1⟩ :=
      foldl_keystroke_grows (t + 600) (k :: rest1) _ hq hrest
    obtain ⟨_, later2, hsent2, hlater2⟩ :=
      runTimers_grows (t + 600)
        (2 * ((k :: rest1).foldl keystroke
          (quiet 0 t v [(t, Message.loading true)])).timers.length) none _ hnb
    refine ⟨later1 ++ later2, ?_, ?_⟩
    · simp only [trace, run, settle]
      rw [List.foldl_cons, keystroke_initial, List.foldl_cons, keystroke_quiet 0 t v _ k hk,
        ← List.foldl_cons]
      rw [hsent2, hsent1]
      simp [quiet]
    · intro m hm
      rcases List.mem_append.mp hm with h1 | h1
      · exact hlater1 m h1
      · exact hlater2 m h1

theorem invariants_initial : handlesFresh Debouncer.initial ∧ clearFollows Debouncer.initial := by
  refine ⟨⟨?_, ?_⟩, ?_⟩
  · intro x hx; simp [Debouncer.initial] at hx
  · intro h hh; simp [Debouncer.initial] at hh
  · intro t v hmem; simp [Debouncer.initial] at hmem

theorem clearLoading_survives_onInput (now : Nat) (v : String) (s : Debouncer)
    (hfresh : handlesFresh s) (x : Timer) (hx : x ∈ s.timers)
    (hcb : x.callback = Callback.clearLoading) : x ∈ (onInput now v s).timers := by
  rw [onInput_eq]
  apply List.mem_append_left
  apply List.mem_filter.mpr
  refine ⟨hx, ?_⟩
  simp only [bne_iff_ne, ne_eq]
  intro heq
  have hsearch := (hfresh.2 x.handle heq.symm).2 x hx rfl
  rw [hcb] at hsearch
  exact Callback.noConfusion hsearch

theorem invariants_onInput (now : Nat) (v : String) (s : Debouncer)
    (hfresh : handlesFresh s) (hfollows : clearFollows s) :
    handlesFresh (onInput now v s) ∧ clearFollows (onInput now v s) := by
  refine ⟨⟨?_, ?_⟩, ?_⟩
  · intro x hx
    rw [onInput_eq] at hx ⊢
    rcases List.mem_append.mp hx with h1 | h1
    · have := hfresh.1 x (List.mem_filter.mp h1).1
      simp only; omega
    · simp only [List.mem_singleton] at h1
      rw [h1]; simp only; omega
  · intro h hh
    rw [onInput_eq] at hh ⊢
    simp only [Option.some.injEq] at hh
    subst hh
    refine ⟨by simp only; omega, ?_⟩
    intro x hx hhandle
    rcases List.mem_append.mp hx with h1 | h1
    · have := hfresh.1 x (List.mem_filter.mp h1).1
      omega
    · simp only [List.mem_singleton] at h1
      rw [h1]
  · intro t w hmem
    have hold : (t, Message.product_search w) ∈ s.sent := by
      rw [onInput_eq] at hmem
      rcases List.mem_append.mp hmem with h1 | h1
      · exact h1
      · simp at h1
    rcases hfollows t w hold with hsub | ⟨x, hx, hcb, hdue⟩
    · left
      rw [onInput_eq]
      exact hsub.trans (List.sublist_append_left _ _)
    · right
      exact ⟨x, clearLoading_survives_onInput now v s hfresh x hx hcb, hcb, hdue⟩

theorem invariants_fire (x : Timer) (s : Debouncer)
    (hfresh : handlesFresh s) (hfollows : clearFollows s) :
    handlesFresh (fire x { s with timers := s.timers.erase x }) ∧
    clearFollows (fire x { s with timers := s.timers.erase x }) := by
  cases hcb : x.callback with
  | search =>
    rw [fire_search _ _ hcb]
    refine ⟨⟨?_, ?_⟩, ?_⟩
    · intro y hy
      rcases List.mem_append.mp hy with h1 | h1
      · have := hfresh.1 y (List.mem_of_mem_erase h1)
        simp only; omega
      · simp only [List.mem_singleton] at h1
        rw [h1]; simp only; omega
    · intro h hh
      have hold := hfresh.2 h hh
      refine ⟨by simp only; omega, ?_⟩
      intro y hy hhandle
      rcases List.mem_append.mp hy with h1 | h1
      · exact hold.2 y (List.mem_of_mem_erase h1) hhandle
      · simp only [List.mem_singleton] at h1
        rw [h1] at hhandle
        simp only at hhandle
        omega
    · intro t w hmem
      rcases List.mem_append.mp hmem with h1 | h1
      · rcases hfollows t w h1 with hsub | ⟨y, hy, hycb, hydue⟩
        · left
          exact hsub.trans (List.sublist_append_left _ _)
        · right
          have hne : y ≠ x := by
            intro heq; rw [heq, hcb] at hycb; exact Callback.noConfusion hycb
          exact ⟨y, List.mem_append_left _ ((List.mem_erase_of_ne hne).mpr hy), hycb, hydue⟩
      · right
        simp only [List.mem_singleton, Prod.mk.injEq] at h1
        refine ⟨⟨s.nextHandle, x.due + 300, Callback.clearLoading⟩,
          List.mem_append_right _ (List.mem_singleton.mpr rfl), rfl, ?_⟩
        simp only; omega
  | clearLoading =>
    rw [fire_clearLoading _ _ hcb]
    refine ⟨⟨?_, ?_⟩, ?_⟩
    · intro y hy
      exact hfresh.1 y (List.mem_of_mem_erase hy)
    · intro h hh
      have hold := hfresh.2 h hh
      exact ⟨hold.1, fun y hy hhandle => hold.2 y (List.mem_of_mem_erase hy) hhandle⟩
    · intro t w hmem
      have hold : (t, Message.product_search w) ∈ s.sent := by
        rcases List.mem_append.mp hmem with h1 | h1
        · exact h1
        · simp at h1
      rcases hfollows t w hold with hsub | ⟨y, hy, hycb, hydue⟩
      · left
        exact hsub.trans (List.sublist_append_left _ _)
      · by_cases heq : y = x
        · left
          have hfirst : List.Sublist [(t, Message.product_search w)] s.sent :=
            List.singleton_sublist.mpr hold
          have hdue : x.due = t + 300 := by rw [← heq]; exact hydue
          have hboth := List.Sublist.append hfirst
            (List.Sublist.refl [(x.due, Message.loading false)])
          rw [hdue] at hboth ⊢
          exact hboth
        · right
          exact ⟨y, (List.mem_erase_of_ne heq).mpr hy, hycb, hydue⟩

theorem invariants_runTimers (fuel : Nat) :
    ∀ (limit : Option Nat) (s : Debouncer), handlesFresh s → clearFollows s →
      handlesFresh (runTimers fuel limit s) ∧ clearFollows (runTimers fuel limit s) := by
  induction fuel with
  | zero => intro limit s h1 h2; exact ⟨h1, h2⟩
  | succ n ih =>
    intro limit s h1 h2
    simp only [runTimers]
    cases hx : earliest s.timers with
    | none => exact ⟨h1, h2⟩
    | some x =>
      simp only
      split
      · obtain ⟨h3, h4⟩ := invariants_fire x s h1 h2
        exact ih limit _ h3 h4
      · exact ⟨h1, h2⟩

theorem invariants_foldl (keys : List (Nat × String)) :
    ∀ s : Debouncer, handlesFresh s → clearFollows s →
      handlesFresh (keys.foldl keystroke s) ∧ clearFollows (keys.foldl keystroke s) := by
  induction keys with
  | nil => intro s h1 h2; exact ⟨h1, h2⟩
  | cons k rest ih =>
    intro s h1 h2
    rw [List.foldl_cons]
    obtain ⟨h3, h4⟩ := invariants_runTimers (2 * s.timers.length) (some k.1) s h1 h2
    obtain ⟨h5, h6⟩ := invariants_onInput k.1 k.2 _ h3 h4
    exact ih _ h5 h6

theorem steps_pos (x : Timer) : 1 ≤ steps x := by
  unfold steps
  split <;> omega

theorem weight_le (ts : List Timer) : weight ts ≤ 2 * ts.length := by
  induction ts with
  | nil => simp [weight]
  | cons x rest ih =>
    have hx : steps x ≤ 2 := by unfold steps; split <;> omega
    simp only [weight, List.map_cons, List.sum_cons, List.length_cons] at ih ⊢
    omega

theorem weight_erase (ts : List Timer) (x : Timer) (hx : x ∈ ts) :
    steps x + weight (ts.erase x) = weight ts := by
  unfold weight
  exact List.sum_map_erase steps hx

theorem runTimers_drains (fuel : Nat) :
    ∀ s : Debouncer, weight s.timers ≤ fuel → (runTimers fuel none s).timers = [] := by
  induction fuel with
  | zero =>
    intro s hw
    simp only [runTimers]
    cases hts : s.timers with
    | nil => rfl
    | cons x rest =>
      rw [hts] at hw
      have := steps_pos x
      simp only [weight, List.map_cons, List.sum_cons] at hw
      omega
  | succ n ih =>
    intro s hw
    simp only [runTimers]
    cases hx : earliest s.timers with
    | none => exact earliest_eq_none _ hx
    | some x =>
      simp only [Option.all_none, if_true]
      apply ih
      have hmem := earliest_mem _ _ hx
      have herase := weight_erase s.timers x hmem
      cases hcb : x.callback with
      | search =>
        rw [fire_search _ _ hcb]
        have hsteps : steps x = 2 := by simp [steps, hcb]
        simp only [weight, List.map_append, List.sum_append, List.map_cons, List.map_nil,
          List.sum_cons, List.sum_nil] at herase hw ⊢
        have hnew : steps ⟨s.nextHandle, x.due + 300, Callback.clearLoading⟩ = 1 := rfl
        omega
      | clearLoading =>
        rw [fire_clearLoading _ _ hcb]
        have hsteps : steps x = 1 := by simp [steps, hcb]
        simp only [weight] at herase hw ⊢
        omega

theorem run_timers_nil (keys : List (Nat × String)) : (run keys).timers = [] := by
  unfold run settle
  exact runTimers_drains _ _ (weight_le _)

theorem earliest_le (ts : List Timer) (x : Timer) (hx : earliest ts = some x) :
    ∀ y ∈ ts, x.due ≤ y.due := by
  induction ts generalizing x with
  | nil => intro y hy; exact absurd hy (List.not_mem_nil y)
  | cons t rest ih =>
    simp only [earliest] at hx
    cases hrest : earliest rest with
    | none =>
      rw [hrest] at hx
      simp only [Option.some.injEq] at hx
      have hnil := earliest_eq_none rest hrest
      intro y hy
      rw [hnil] at hy
      rw [List.mem_singleton.mp hy, hx]
    | some u =>
      rw [hrest] at hx
      simp only at hx
      have hu := ih u hrest
      intro y hy
      split at hx
      · simp only [Option.some.injEq] at hx
        rw [← hx]
        rcases List.mem_cons.mp hy with h1 | h1
        · rw [h1]; omega
        · exact hu y h1
      · simp only [Option.some.injEq] at hx
        rw [← hx]
        rcases List.mem_cons.mp hy with h1 | h1
        · rw [h1]
        · have := hu y h1
          omega

theorem runTimers_until (stop : Nat) (fuel : Nat) :
    ∀ s : Debouncer, weight s.timers ≤ fuel →
      ∀ y ∈ (runTimers fuel (some stop) s).timers, stop < y.due := by
  induction fuel with
  | zero =>
    intro s hw y hy
    simp only [runTimers] at hy
    cases hts : s.timers with
    | nil => rw [hts] at hy; exact absurd hy (List.not_mem_nil y)
    | cons x rest =>
      rw [hts] at hw
      have := steps_pos x
      simp only [weight, List.map_cons, List.sum_cons] at hw
      omega
  | succ n ih =>
    intro s hw y hy
    simp only [runTimers] at hy
    cases hx : earliest s.timers with
    | none =>
      rw [hx] at hy
      simp only at hy
      rw [earliest_eq_none _ hx] at hy
      exact absurd hy (List.not_mem_nil y)
    | some x =>
      rw [hx] at hy
      simp only [Option.all_some, decide_eq_true_eq] at hy
      by_cases hdue : x.due ≤ stop
      · rw [if_pos hdue] at hy
        refine ih _ ?_ y hy
        have hmem := earliest_mem _ _ hx
        have herase := weight_erase s.timers x hmem
        cases hcb : x.callback with
        | search =>
          rw [fire_search _ _ hcb]
          have hsteps : steps x = 2 := by simp [steps, hcb]
          simp only [weight, List.map_append, List.sum_append, List.map_cons, List.map_nil,
            List.sum_cons, List.sum_nil] at herase hw ⊢
          have hnew : steps ⟨s.nextHandle, x.due + 300, Callback.clearLoading⟩ = 1 := rfl
          omega
        | clearLoading =>
          rw [fire_clearLoading _ _ hcb]
          have hsteps : steps x = 1 := by simp [steps, hcb]
          simp only [weight] at herase hw ⊢
          omega
      · rw [if_neg hdue] at hy
        have := earliest_le _ _ hx y hy
        omega

/-- The steps `settle` allows are enough: after `settle (some stop)` every
timer still pending is due after `stop`, and after `settle none` none is
pending. -/
theorem settle_complete (s : Debouncer) :
    (∀ stop : Nat, ∀ y ∈ (settle (some stop) s).timers, stop < y.due) ∧
    (settle none s).timers = [] :=
  ⟨fun stop => runTimers_until stop _ s (weight_le _), runTimers_drains _ s (weight_le _)⟩

/-- C10: a keystroke cancels the pending search timer only: in every page that
keystrokes can reach, a pending loading-clear timer is still pending after the
`input` listener has run; and in the trace of every keystroke sequence each
`product_search` message sent at `t` is followed by `loading = false` at
`t + 300`.  For keystrokes at 0ms and 500ms, `loading = false` is sent at
600ms, after the `loading = true` of 500ms and before the second search of
800ms. -/
theorem clear_follows_every_search :
    (∀ (keys : List (Nat × String)) (k : Nat × String) (x : Timer),
      x ∈ (settle (some k.1) (keys.foldl keystroke Debouncer.initial)).timers →
      x.callback = Callback.clearLoading →
      x ∈ (keystroke (keys.foldl keystroke Debouncer.initial) k).timers) ∧
    (∀ (keys : List (Nat × String)) (t : Nat) (v : String),
      (t, Message.product_search v) ∈ trace keys →
      List.Sublist [(t, Message.product_search v), (t + 300, Message.loading false)]
        (trace keys)) ∧
    trace [(0, "a"), (500, "ab")] =
      [(0, Message.loading true), (300, Message.product_search "a"),
       (500, Message.loading true), (600, Message.loading false),
       (800, Message.product_search "ab"), (1100, Message.loading false)] := by
  refine ⟨?_, ?_, by decide⟩
  · intro keys k x hx hcb
    obtain ⟨h1, h2⟩ := invariants_foldl keys _ invariants_initial.1 invariants_initial.2
    obtain ⟨h3, _⟩ := invariants_runTimers
      (2 * (keys.foldl keystroke Debouncer.initial).timers.length) (some k.1) _ h1 h2
    exact clearLoading_survives_onInput k.1 k.2 _ h3 x hx hcb
  · intro keys t v hmem
    obtain ⟨h1, h2⟩ := invariants_foldl keys _ invariants_initial.1 invariants_initial.2
    obtain ⟨_, h4⟩ := invariants_runTimers
      (2 * (keys.foldl keystroke Debouncer.initial).timers.length) none _ h1 h2
    have hnil := run_timers_nil keys
    rcases h4 t v hmem with hsub | ⟨x, hx, _, _⟩
    · exact hsub
    · have hx2 : x ∈ (run keys).timers := hx
      rw [hnil] at hx2
      exact absurd hx2 (List.not_mem_nil x)

end Dashboard
